import Mathlib

/-!
# richprint: locating and decoding the Rich header of a PE image

A shallow embedding of `src/richprint.cpp` and theorems about it.

Modelling conventions.

* A file opened with `std::fstream` is an `FStream`: its bytes, the stream's
  fail bit, and a log of the read calls made so far.
* `unsigned char buf[n]` inside `readWord` and `readDword` is not initialised
  by the source.  Its prior content is an input of the model (`Env.stale`),
  chosen per read call; bytes that `file.read` does not deliver keep it.
* `unsigned short` is 16 bits, `int` is 32 bits, and the width of
  `unsigned long` is `Env.ulongBits` (32 on Windows and on 32-bit targets,
  64 on LP64 targets such as x86-64 Linux).
* Stream positions (`std::streampos`) are 64-bit signed offsets; every
  position the program computes is far below that bound, so positions are
  natural numbers and the one subtraction (`endp -= 8`) is done in `Int`.
-/

namespace RichPrint

/-! ## Environment and stream -/

/-- The platform parameters the source leaves open. -/
structure Env where
  /-- Width in bits of `unsigned long`. -/
  ulongBits : Nat
  /-- Prior content of the local buffer `buf` of the `k`-th read call:
  `stale k i` is the byte found in `buf[i]` before `file.read` runs. -/
  stale : Nat → Nat → Nat
  /-- Prior content of the local `unsigned long id` declared in the `k`-th
  accepted line of `loadDescriptions`, which the source does not initialise. -/
  staleId : Nat → Nat

/-- An input file stream opened in binary mode. -/
structure FStream where
  /-- The bytes of the file. -/
  bytes : List Nat
  /-- The stream's `failbit`. -/
  failed : Bool
  /-- Read calls made so far, most recent first: the requested position and
  the number of bytes the call extracted from the file. -/
  reads : List (Nat × Nat)
deriving DecidableEq, Repr

/-- A freshly opened stream on the given bytes. -/
def FStream.opened (bytes : List Nat) : FStream := ⟨bytes, false, []⟩

/-- Length of the file in bytes. -/
def FStream.size (file : FStream) : Nat := file.bytes.length

/-- The pair `file.seekg( pos ); file.read( buf, n );` on an uninitialised
`unsigned char buf[n]`.

On a stream whose fail bit is set both calls do nothing, and `buf` keeps its
prior content.  Otherwise the stream delivers the bytes at `pos, pos+1, ...`
as far as the file reaches; when fewer than `n` are delivered the fail bit is
set and the rest of `buf` keeps its prior content.  The result is the content
of `buf` after the call and the stream after the call. -/
def readBuf (env : Env) (file : FStream) (pos n : Nat) : List Nat × FStream :=
  let k := file.reads.length
  let prior := (List.range n).map (fun i => env.stale k i % 256)
  if file.failed then
    (prior, { file with reads := (pos, 0) :: file.reads })
  else
    let got := ((file.bytes.drop pos).take n).map (fun b => b % 256)
    (got ++ prior.drop got.length,
     { file with failed := decide (got.length < n), reads := (pos, got.length) :: file.reads })

/-- The value of a 32-bit pattern read as a two's complement `int`. -/
def toInt32 (n : Nat) : Int :=
  if n % 2 ^ 32 < 2 ^ 31 then ((n % 2 ^ 32 : Nat) : Int) else ((n % 2 ^ 32 : Nat) : Int) - 2 ^ 32

/-- Conversion of an `int` to `unsigned long`: reduction modulo `2 ^ ulongBits`. -/
def toULong (env : Env) (i : Int) : Nat := (i % (2 : Int) ^ env.ulongBits).toNat

/-- Source `readWord`: `res = (unsigned short)buf[0] | (unsigned short)buf[1] << 8`,
computed in `int` and stored in an `unsigned short`. -/
def readWord (env : Env) (file : FStream) (pos : Nat) : Nat × FStream :=
  let r := readBuf env file pos 2
  let buf := r.1
  ((buf.getD 0 0 ||| buf.getD 1 0 <<< 8) % 2 ^ 16, r.2)

/-- Source `readDword`: each byte is cast to `unsigned short`, promoted to
`int` and shifted; the four are or-ed in `int` and the `int` is converted to
the `unsigned long` result. -/
def readDword (env : Env) (file : FStream) (pos : Nat) : Nat × FStream :=
  let r := readBuf env file pos 4
  let buf := r.1
  (toULong env (toInt32 (buf.getD 0 0 ||| buf.getD 1 0 <<< 8 ||| buf.getD 2 0 <<< 16 |||
    buf.getD 3 0 <<< 24)), r.2)

/-! ## Diagnostics, entries and the description table -/

/-- The failures of `getRichheader`, named as in the specification.  Each
constructor stands for the diagnostic the source writes to `cerr` before it
returns; `TruncatedRead` is listed by the specification only, no statement
of the source writes such a diagnostic. -/
inductive Error where
  /-- Diagnostic "No MZ header - not an executable." -/
  | NotAnExecutable
  /-- Diagnostics "Too few paragraphs in DOS header" and "PE offset is too small". -/
  | MalformedDosHeader
  /-- Diagnostic "No PE header signature". -/
  | NotAPEImage
  /-- Diagnostic "Rich header not found." -/
  | RichSignatureNotFound
  /-- Diagnostic "Rich header's DanS token not found." -/
  | DansTokenNotFound
  /-- Diagnostic "Calculated end offset runs into PE header". -/
  | RichHeaderOverrunsPEHeader
  /-- Named by the specification; never produced by the source. -/
  | TruncatedRead
deriving DecidableEq, Repr

/-- A `std::string`: the sequence of its bytes. -/
abbrev ByteString := List Nat

/-- Source `StrMap`: a `std::map<unsigned long, string>`, kept as an
association list with at most one pair per key. -/
abbrev StrMap := List (Nat × ByteString)

/-- Source `descriptions.find( id )`: the mapped string, or `none` for `end()`. -/
def StrMap.find (descriptions : StrMap) (id : Nat) : Option ByteString :=
  match descriptions with
  | [] => none
  | (k, v) :: rest => if k = id then some v else StrMap.find rest id

/-- One row printed by `decodeRichheader`: the decoded dword `ver`, its two
halves `id` and `minver`, the use count and the description printed after it,
if any. -/
structure RichEntry where
  ver : Nat
  id : Nat
  minver : Nat
  count : Nat
  description : Option ByteString
deriving DecidableEq, Repr

/-- Source `getMachineType`. -/
def getMachineType (machineId : Nat) : String :=
  if machineId = 0x8664 then "x64"
  else if machineId = 0x14c then "x32"
  else if machineId = 0x1d3 then "Matsushita AM33"
  else if machineId = 0x1c0 then "ARM LE"
  else if machineId = 0x1c4 then "ARMv7+ Thumb"
  else if machineId = 0xaa64 then "ARMv8 64bit"
  else if machineId = 0xebc then "EFI bytecode"
  else if machineId = 0x200 then "Intel Itanium"
  else if machineId = 0x9041 then "Mitsubishi M32R LE"
  else if machineId = 0x266 then "MIPS16"
  else if machineId = 0x366 then "MIPS w/FPU"
  else if machineId = 0x466 then "MIPS16 w/FPU"
  else if machineId = 0x1f0 then "PowerPC LE"
  else if machineId = 0x1f1 then "PowerPC w/FPU"
  else if machineId = 0x166 then "MIPS LE"
  else if machineId = 0x1a2 then "Hitachi SH3"
  else if machineId = 0x1a3 then "Hitachi SH3 DSP"
  else if machineId = 0x1a6 then "Hitachi SH4"
  else if machineId = 0x1a8 then "Hitachi SH5"
  else if machineId = 0x1c2 then "ARM or Thumb"
  else if machineId = 0x169 then "MIPS LE WCE v2"
  else "Unknown"

/-! ## The decode pass -/

/-- The `while( cur < endp )` loop of `decodeRichheader`, `endp` being the
value after `endp -= 8`.  Each round reads the dword at `cur` and the dword at
`cur + 4`, prints one row and advances `cur` by 8. -/
def decodeLoop (env : Env) (descriptions : StrMap) (key : Nat) (endp : Int) (cur : Nat)
    (file : FStream) : List RichEntry × FStream :=
  if (cur : Int) < endp then
    let r1 := readDword env file cur
    let ver := r1.1 ^^^ key
    let id := ver >>> 16
    let minver := ver &&& 0xFFFF
    let r2 := readDword env r1.2 (cur + 4)
    let count := r2.1 ^^^ key
    let rest := decodeLoop env descriptions key endp (cur + 4 + 4) r2.2
    (⟨ver, id, minver, count, descriptions.find ver⟩ :: rest.1, rest.2)
  else
    ([], file)
termination_by (endp - cur).toNat
decreasing_by omega

/-- Source `decodeRichheader`: the rows it prints, in order, and the stream
afterwards. -/
def decodeRichheader (env : Env) (file : FStream) (start endp key : Nat)
    (descriptions : StrMap) : List RichEntry × FStream :=
  decodeLoop env descriptions key ((endp : Int) - 8) (start + 16) file

/-! ## Locating the header -/

/-- What the location phase of `getRichheader` hands to the scans: the
machine name it printed, the start of the DOS stub (`dosexe_offset`) and the
offset of the PE header (`pe_offset`). -/
structure Located where
  machine : String
  dosexe_offset : Nat
  pe_offset : Nat
deriving DecidableEq, Repr

/-- The computation of `dosexe_offset` in `getRichheader`: the relocation
table offset, plus four bytes per relocation when there are any, aligned on a
paragraph boundary. -/
def dosStubStart (reloc_offset num_relocs : Nat) : Nat :=
  let dosexe_offset := reloc_offset
  let dosexe_offset := if num_relocs > 0 then dosexe_offset + 4 * num_relocs else dosexe_offset
  if dosexe_offset % 16 ≠ 0 then dosexe_offset + (16 - dosexe_offset % 16) else dosexe_offset

/-- The location phase of `getRichheader`: the MZ check, the two DOS header
checks, the PE signature check, the machine type line and the computation of
the DOS stub offset. -/
def locate (env : Env) (file : FStream) : Except Error Located × FStream :=
  let r0 := readWord env file 0
  let mz := r0.1
  if mz ≠ 0x5a4d then (.error .NotAnExecutable, r0.2) else
  let r1 := readWord env r0.2 6
  let num_relocs := r1.1
  let r2 := readWord env r1.2 8
  let header_para := r2.1
  if header_para < 4 then (.error .MalformedDosHeader, r2.2) else
  let r3 := readWord env r2.2 0x18
  let reloc_offset := r3.1
  let r4 := readWord env r3.2 0x3c
  let pe_offset := r4.1
  if pe_offset < header_para * 16 then (.error .MalformedDosHeader, r4.2) else
  let r5 := readDword env r4.2 pe_offset
  let t := r5.1
  if t ≠ 0x4550 then (.error .NotAPEImage, r5.2) else
  let r6 := readWord env r5.2 (pe_offset + 4)
  (.ok ⟨getMachineType r6.1, dosStubStart reloc_offset num_relocs, pe_offset⟩, r6.2)

/-! ## The two scans -/

/-- The first `for` loop of `getRichheader`, from index `i` on: the value of
`roffset` after the loop, which is 0 when no dword equal to "Rich" was met. -/
def scanRich (env : Env) (pe_offset i : Nat) (file : FStream) : Nat × FStream :=
  if i < pe_offset then
    let r := readDword env file i
    let t := r.1
    if t = 0x68636952 then (i + 4, r.2)
    else scanRich env pe_offset (i + 4) r.2
  else
    (0, file)
termination_by pe_offset - i
decreasing_by omega

/-- The second `for` loop of `getRichheader`, from index `i` on: the value of
`doffset` after the loop, which is 0 when no dword decoded to "DanS". -/
def scanDans (env : Env) (key pe_offset i : Nat) (file : FStream) : Nat × FStream :=
  if i < pe_offset then
    let r := readDword env file i
    let t := r.1 ^^^ key
    if t = 0x536E6144 then (i, r.2)
    else scanDans env key pe_offset (i + 4) r.2
  else
    (0, file)
termination_by pe_offset - i
decreasing_by omega

/-! ## The whole pass over one file -/

/-- How the pass over one file ends: with one diagnostic, or with the rows
printed by `decodeRichheader`. -/
inductive Outcome where
  | failure (e : Error)
  | decoded (entries : List RichEntry)
deriving DecidableEq, Repr

/-- What `getRichheader` did on one opened file: the "Target machine" line if
it was printed, how the pass ended, and the stream at the end. -/
structure Report where
  machine : Option String
  outcome : Outcome
  file : FStream
deriving DecidableEq, Repr

/-- Source `getRichheader`, from the point where the file has been opened. -/
def getRichheader (env : Env) (descriptions : StrMap) (file : FStream) : Report :=
  match locate env file with
  | (.error e, file) => ⟨none, .failure e, file⟩
  | (.ok loc, file) =>
    let s1 := scanRich env loc.pe_offset loc.dosexe_offset file
    let roffset := s1.1
    if roffset = 0 then ⟨some loc.machine, .failure .RichSignatureNotFound, s1.2⟩ else
    let rk := readDword env s1.2 roffset
    let key := rk.1
    let s2 := scanDans env key loc.pe_offset loc.dosexe_offset rk.2
    let doffset := s2.1
    if doffset = 0 then ⟨some loc.machine, .failure .DansTokenNotFound, s2.2⟩ else
    let roffset := roffset + 4
    if roffset > loc.pe_offset then
      ⟨some loc.machine, .failure .RichHeaderOverrunsPEHeader, s2.2⟩
    else
      let d := decodeRichheader env s2.2 doffset roffset key descriptions
      ⟨some loc.machine, .decoded d.1, d.2⟩

/-! ## Loading the description table

A `std::string` is the sequence of its bytes (`ByteString`); lengths count
bytes and `get` consumes one byte.  The comments name the characters that the
byte constants stand for. -/

/-- White space skipped by formatted extraction (classic locale): space,
tab, line feed, vertical tab, form feed, carriage return. -/
def isSpace (c : Nat) : Bool :=
  c = 0x20 || c = 0x09 || c = 0x0A || c = 0x0B || c = 0x0C || c = 0x0D

/-- The value of a hexadecimal digit: `0`..`9` are the bytes `0x30`..`0x39`,
`a`..`f` the bytes `0x61`..`0x66`, `A`..`F` the bytes `0x41`..`0x46`. -/
def hexDigit (c : Nat) : Option Nat :=
  if 0x30 ≤ c ∧ c ≤ 0x39 then some (c - 0x30)
  else if 0x61 ≤ c ∧ c ≤ 0x66 then some (c - 0x61 + 10)
  else if 0x41 ≤ c ∧ c ≤ 0x46 then some (c - 0x41 + 10)
  else none

/-- Accumulation of the hexadecimal digits at the head of the input: the
value so far, the number of digits taken, and the input left. -/
def hexDigits (acc taken : Nat) : ByteString → Nat × Nat × ByteString
  | [] => (acc, taken, [])
  | c :: cs =>
    match hexDigit c with
    | some d => hexDigits (acc * 16 + d) (taken + 1) cs
    | none => (acc, taken, c :: cs)

/-- The optional `0x` or `0X` (bytes `30 78`, `30 58`) that hexadecimal
extraction accepts before the digits: the input after it.  A lone leading `0`
is left in place, it is a digit. -/
def skipHexMarker : ByteString → ByteString
  | 0x30 :: 0x78 :: cs => cs
  | 0x30 :: 0x58 :: cs => cs
  | cs => cs

/-- Result of `is >> std::hex >> id` followed by `is.get()` and
`getline( is, desc )` on the bytes of one line: the value stored in `id`
(`none` when the extraction stores nothing and `id` keeps its prior content)
and the string stored in `desc`.

The extraction skips leading white space, then takes an optional sign (`-` is
the byte `0x2D`, `+` the byte `0x2B`), an optional `0x`, and hexadecimal
digits as far as they go.  With no digit it stores 0 and sets the fail bit; a
value that does not fit `unsigned long` is stored as the largest
`unsigned long` with the fail bit set; a minus sign negates the value modulo
`2 ^ ulongBits`.  When the line holds white space only, nothing is stored.
`get` and `getline` do nothing on a stream that is not good, which leaves
`desc` empty; otherwise `get` drops one byte and `getline` takes the rest of
the line (a line holds no line feed, `getline( file, str )` having removed
it). -/
def parseLine (env : Env) (str : ByteString) : Option Nat × ByteString :=
  let s := str.dropWhile isSpace
  if s = [] then (none, []) else
  let neg := s.head? = some 0x2D
  let s := if s.head? = some 0x2D ∨ s.head? = some 0x2B then s.tail else s
  let r := hexDigits 0 0 (skipHexMarker s)
  let value := r.1
  let taken := r.2.1
  let rest := r.2.2
  if taken = 0 then (some 0, [])
  else if value ≥ 2 ^ env.ulongBits then (some (2 ^ env.ulongBits - 1), [])
  else
    let id := if neg then (2 ^ env.ulongBits - value) % 2 ^ env.ulongBits else value
    if rest = [] then (some id, []) else (some id, rest.tail)

/-- The body of the `while( !file.eof() )` loop of `loadDescriptions`, run on
the strings that successive `getline( file, str )` calls deliver; `k` counts
the accepted lines so far.  A line is accepted when `str.length() > 8`, a
count of bytes, and `str[0] != '#'` (the byte `0x23`). -/
def loadLines (env : Env) (k : Nat) (lines : List ByteString) (descriptions : StrMap) :
    StrMap :=
  match lines with
  | [] => descriptions
  | str :: more =>
    if str.length > 8 ∧ str.head? ≠ some 0x23 then
      let p := parseLine env str
      let id := (p.1.getD (env.staleId k)) % 2 ^ env.ulongBits
      let desc := p.2
      if descriptions.find id ≠ none then
        loadLines env (k + 1) more descriptions
      else
        loadLines env (k + 1) more ((id, desc) :: descriptions)
    else
      loadLines env k more descriptions

/-- Source `loadDescriptions`.  The resource is `none` when the file cannot be
opened, and otherwise the strings that the successive `getline` calls
deliver. -/
def loadDescriptions (env : Env) (resource : Option (List ByteString))
    (descriptions : StrMap) : StrMap :=
  match resource with
  | none => descriptions
  | some lines => loadLines env 0 lines descriptions

/-! ## Vocabulary of the statements -/

/-- The byte at offset `p` of a file (0 beyond its end). -/
def byteAt (bytes : List Nat) (p : Nat) : Nat := bytes.getD p 0 % 256

/-- The little-endian value of the two bytes at offset `p`. -/
def le16At (bytes : List Nat) (p : Nat) : Nat := byteAt bytes p + 2 ^ 8 * byteAt bytes (p + 1)

/-- The little-endian value of the four bytes at offset `p`. -/
def le32At (bytes : List Nat) (p : Nat) : Nat :=
  byteAt bytes p + 2 ^ 8 * byteAt bytes (p + 1) + 2 ^ 16 * byteAt bytes (p + 2) +
    2 ^ 24 * byteAt bytes (p + 3)

/-- The four bytes of a dword, least significant first. -/
def dwordBytes (n : Nat) : List Nat :=
  [n % 256, n / 2 ^ 8 % 256, n / 2 ^ 16 % 256, n / 2 ^ 24 % 256]

/-- A platform with a 32-bit `unsigned long` and zeroed stale memory. -/
def Env.ulong32 : Env := ⟨32, fun _ _ => 0, fun _ => 0⟩

/-- A platform with a 64-bit `unsigned long` (LP64) and zeroed stale memory. -/
def Env.ulong64 : Env := ⟨64, fun _ _ => 0, fun _ => 0⟩

/-- A platform with a 32-bit `unsigned long` on which the buffer of every read
call holds the bytes `4D 5A` before the call. -/
def Env.staleMZ : Env := ⟨32, fun _ i => if i = 0 then 0x4D else 0x5A, fun _ => 0⟩

/-- The smallest file that passes the four location checks: an MZ word, four
header paragraphs, the PE header at offset `0x40`, and the PE signature. -/
def minimalPE : List Nat :=
  [0x4D, 0x5A, 0, 0, 0, 0, 0, 0, 4, 0] ++ List.replicate 14 0 ++ [0x40, 0] ++
    List.replicate 34 0 ++ [0x40, 0, 0, 0] ++ [0x50, 0x45, 0, 0, 0x4C, 0x01]

/-- A file of ten bytes: the MZ word and zeros. -/
def shortMZ : List Nat := [0x4D, 0x5A, 0, 0, 0, 0, 0, 0, 0, 0]

/-- The two dwords that encode one entry `(comp_id, build_version, use_count)`
under `key`, as the specification describes them:
`(comp_id << 16 | build_version) XOR key`, then `use_count XOR key`. -/
def encodeEntry (key : Nat) (e : Nat × Nat × Nat) : List Nat :=
  dwordBytes ((e.1 <<< 16 ||| e.2.1) ^^^ key) ++ dwordBytes (e.2.2 ^^^ key)

/-- The bytes of the entry table: the entries in order. -/
def encodeEntries (key : Nat) : List (Nat × Nat × Nat) → List Nat
  | [] => []
  | e :: es => encodeEntry key e ++ encodeEntries key es

/-- A synthetic Rich header as the specification lays it out: the dword "DanS"
XOR key, three further dwords (`pad`, twelve bytes), the entry table, the
dword "Rich" and the key. -/
def encodeRichHeader (key : Nat) (pad : List Nat) (entries : List (Nat × Nat × Nat)) :
    List Nat :=
  dwordBytes (0x536E6144 ^^^ key) ++ pad ++ encodeEntries key entries ++
    dwordBytes 0x68636952 ++ dwordBytes key

/-- The fields of a printed row that the specification calls `comp_id`,
`build_version` and `use_count`. -/
def RichEntry.fields (e : RichEntry) : Nat × Nat × Nat := (e.id, e.minver, e.count)

/-- The example of the specification: two entries under key `0xDEADBEEF`. -/
def sampleHeader : List Nat :=
  encodeRichHeader 0xDEADBEEF (List.replicate 12 0) [(0x0019, 30729, 5), (0x0104, 20706, 2)]

/-- A header of one entry whose `comp_id` and `use_count` have their top bit
set, under key 0. -/
def topBitHeader : List Nat :=
  encodeRichHeader 0 (List.replicate 12 0) [(0x8001, 2, 0x80000003)]

/-- The number that a string of hexadecimal digits denotes. -/
def hexValue (digits : ByteString) : Nat :=
  digits.foldl (fun acc c => acc * 16 + (hexDigit c).getD 0) 0

/-- A complete image: a 64-byte DOS header with the stub at `0x40` and the PE
header at `0x60`, the top-bit Rich header between them, the PE signature and
the machine word of x64. -/
def topBitPE : List Nat :=
  [0x4D, 0x5A, 0, 0, 0, 0, 0, 0, 4, 0] ++ List.replicate 14 0 ++ [0x40, 0] ++
    List.replicate 34 0 ++ [0x60, 0, 0, 0] ++ topBitHeader ++ [0x50, 0x45, 0, 0, 0x64, 0x86]

/-! ## The values `getRichheader` holds after the location phase

Each of the following names one local of the source, as a function of the
two bounds and of the stream the location phase leaves. -/

/-- The stream after the first scan. -/
def afterRich (env : Env) (dosexe_offset pe_offset : Nat) (file : FStream) : FStream :=
  (scanRich env pe_offset dosexe_offset file).2

/-- The local `roffset` after the first scan: the offset just after the "Rich"
dword, or 0. -/
def richEnd (env : Env) (dosexe_offset pe_offset : Nat) (file : FStream) : Nat :=
  (scanRich env pe_offset dosexe_offset file).1

/-- The offset of the "Rich" dword itself (`rich_sig_offset`). -/
def richSigOffset (env : Env) (dosexe_offset pe_offset : Nat) (file : FStream) : Nat :=
  richEnd env dosexe_offset pe_offset file - 4

/-- The local `key`: the dword read at `roffset`. -/
def recoveredKey (env : Env) (dosexe_offset pe_offset : Nat) (file : FStream) : Nat :=
  (readDword env (afterRich env dosexe_offset pe_offset file)
    (richEnd env dosexe_offset pe_offset file)).1

/-- The stream after the key has been read. -/
def afterKey (env : Env) (dosexe_offset pe_offset : Nat) (file : FStream) : FStream :=
  (readDword env (afterRich env dosexe_offset pe_offset file)
    (richEnd env dosexe_offset pe_offset file)).2

/-- The local `doffset` after the second scan (`dans_offset`, or 0). -/
def dansOffset (env : Env) (dosexe_offset pe_offset : Nat) (file : FStream) : Nat :=
  (scanDans env (recoveredKey env dosexe_offset pe_offset file) pe_offset dosexe_offset
    (afterKey env dosexe_offset pe_offset file)).1

/-- The stream after the second scan. -/
def afterDans (env : Env) (dosexe_offset pe_offset : Nat) (file : FStream) : FStream :=
  (scanDans env (recoveredKey env dosexe_offset pe_offset file) pe_offset dosexe_offset
    (afterKey env dosexe_offset pe_offset file)).2

/-- The dword at offset `p` as `readDword` delivers it from a good stream. -/
def dwordAt (env : Env) (bytes : List Nat) (p : Nat) : Nat :=
  toULong env (toInt32 (le32At bytes p))

/-- The bytes of a text in UTF-8, the encoding of the literals below. -/
def utf8 (s : String) : ByteString :=
  s.data.flatMap (fun c => (String.utf8EncodeChar c).map UInt8.toNat)

/-- A line that `loadDescriptions` accepts: longer than 8 bytes and not
starting with `#`. -/
def accepted (str : ByteString) : Prop := str.length > 8 ∧ str.head? ≠ some 0x23

instance (str : ByteString) : Decidable (accepted str) := by
  unfold accepted
  exact inferInstance

/-- The id that the `k`-th accepted line bears: the value `id` holds after
the extraction. -/
def lineId (env : Env) (k : Nat) (str : ByteString) : Nat :=
  (parseLine env str).1.getD (env.staleId k) % 2 ^ env.ulongBits

/-- The accepted lines of a resource, in order, each as the pair of the id it
bears and its description; `k` counts the accepted lines before. -/
def acceptedPairs (env : Env) (k : Nat) : List ByteString → List (Nat × ByteString)
  | [] => []
  | str :: more =>
    if accepted str then
      (lineId env k str, (parseLine env str).2) :: acceptedPairs env (k + 1) more
    else acceptedPairs env k more

/-- The description of the first pair bearing `id`, if any. -/
def firstBearing (id : Nat) : List (Nat × ByteString) → Option ByteString
  | [] => none
  | p :: rest => if p.1 = id then some p.2 else firstBearing id rest

/-- An image that passes the four location checks with a relocation table
offset of `0x80`, beyond its PE header at `0x40`. -/
def farRelocPE : List Nat :=
  [0x4D, 0x5A, 0, 0, 0, 0, 0, 0, 4, 0] ++ List.replicate 14 0 ++ [0x80, 0] ++
    List.replicate 34 0 ++ [0x40, 0, 0, 0] ++ [0x50, 0x45, 0, 0, 0x4C, 0x01]

/-- The 64-byte DOS header used by the sample images: the MZ word, four
header paragraphs, the relocation table offset `0x40`, no relocation, and the
given offset of the PE header. -/
def dosHeader (pe_offset : Nat) : List Nat :=
  [0x4D, 0x5A, 0, 0, 0, 0, 0, 0, 4, 0] ++ List.replicate 14 0 ++ [0x40, 0] ++
    List.replicate 34 0 ++ [pe_offset, 0, 0, 0]

/-- The PE signature and the machine word of x64. -/
def peHeader : List Nat := [0x50, 0x45, 0, 0, 0x64, 0x86]

/-- The stream that the location phase leaves on an image of this shape. -/
def located (bytes : List Nat) (pe_offset : Nat) : FStream :=
  ⟨bytes, false, [(pe_offset + 4, 2), (pe_offset, 4), (60, 2), (24, 2), (8, 2), (6, 2), (0, 2)]⟩

/-- An image whose stub holds "Rich" at `0x40`, the key 0 at `0x44` and the
token "DanS" at `0x48`, after the signature. -/
def dansAfterRichPE : List Nat :=
  dosHeader 0x60 ++ dwordBytes 0x68636952 ++ dwordBytes 0 ++ dwordBytes 0x536E6144 ++
    List.replicate 20 0 ++ peHeader

/-- An image whose "Rich" dword sits at `0x5C`, right before the PE header at
`0x60`, so that the dword after it is the PE signature `0x4550`; the token
"DanS" XOR `0x4550` sits at `0x40`. -/
def richAtEndPE : List Nat :=
  dosHeader 0x60 ++ dwordBytes (0x536E6144 ^^^ 0x4550) ++ List.replicate 24 0 ++
    dwordBytes 0x68636952 ++ peHeader

/-- A Rich header under key 0 whose entry table holds one pair and a half:
the pair `(0x00010002, 3)` and the single dword `0x00050004`. -/
def oddHeader : List Nat :=
  dwordBytes 0x536E6144 ++ List.replicate 12 0 ++ dwordBytes 0x00010002 ++ dwordBytes 3 ++
    dwordBytes 0x00050004 ++ dwordBytes 0x68636952 ++ dwordBytes 0

/-- A complete image around `oddHeader`: the stub at `0x40`, "Rich" at `0x5C`,
the PE header at `0x64`. -/
def oddPE : List Nat := dosHeader 0x64 ++ oddHeader ++ peHeader

/-- The reads a stream made after an earlier state of it. -/
def readsSince (earlier later : FStream) : List (Nat × Nat) :=
  later.reads.take (later.reads.length - earlier.reads.length)

/-- An image whose DOS stub starts at offset 0 (relocation table offset 0, no
relocation): "Rich" at `0x40`, followed by the key `0x536E3B09`, which is the
first dword of the file `0x00005A4D` XOR "DanS"; the PE header at `0x50`. -/
def zeroStubPE : List Nat :=
  [0x4D, 0x5A, 0, 0, 0, 0, 0, 0, 4, 0] ++ List.replicate 14 0 ++ [0, 0] ++
    List.replicate 34 0 ++ [0x50, 0, 0, 0] ++ dwordBytes 0x68636952 ++
    dwordBytes (0x00005A4D ^^^ 0x536E6144) ++ List.replicate 8 0 ++ peHeader

/-- The cases of the `switch` in `getMachineType`, in source order: each
constant with the name assigned under it. -/
def machineTable : List (Nat × String) :=
  [(0x8664, "x64"), (0x14c, "x32"), (0x1d3, "Matsushita AM33"), (0x1c0, "ARM LE"),
   (0x1c4, "ARMv7+ Thumb"), (0xaa64, "ARMv8 64bit"), (0xebc, "EFI bytecode"),
   (0x200, "Intel Itanium"), (0x9041, "Mitsubishi M32R LE"), (0x266, "MIPS16"),
   (0x366, "MIPS w/FPU"), (0x466, "MIPS16 w/FPU"), (0x1f0, "PowerPC LE"),
   (0x1f1, "PowerPC w/FPU"), (0x166, "MIPS LE"), (0x1a2, "Hitachi SH3"),
   (0x1a3, "Hitachi SH3 DSP"), (0x1a6, "Hitachi SH4"), (0x1a8, "Hitachi SH5"),
   (0x1c2, "ARM or Thumb"), (0x169, "MIPS LE WCE v2")]

/-- The location phase of `getRichheader` with the machine-type lookup as a
parameter: `locate` is the instance at `getMachineType`. -/
def locateWith (lookup : Nat → String) (env : Env) (file : FStream) :
    Except Error Located × FStream :=
  let r0 := readWord env file 0
  let mz := r0.1
  if mz ≠ 0x5a4d then (.error .NotAnExecutable, r0.2) else
  let r1 := readWord env r0.2 6
  let num_relocs := r1.1
  let r2 := readWord env r1.2 8
  let header_para := r2.1
  if header_para < 4 then (.error .MalformedDosHeader, r2.2) else
  let r3 := readWord env r2.2 0x18
  let reloc_offset := r3.1
  let r4 := readWord env r3.2 0x3c
  let pe_offset := r4.1
  if pe_offset < header_para * 16 then (.error .MalformedDosHeader, r4.2) else
  let r5 := readDword env r4.2 pe_offset
  let t := r5.1
  if t ≠ 0x4550 then (.error .NotAPEImage, r5.2) else
  let r6 := readWord env r5.2 (pe_offset + 4)
  (.ok ⟨lookup r6.1, dosStubStart reloc_offset num_relocs, pe_offset⟩, r6.2)

/-- Source `getRichheader` with the machine-type lookup as a parameter:
`getRichheader` is the instance at `getMachineType`. -/
def getRichheaderWith (lookup : Nat → String) (env : Env) (descriptions : StrMap)
    (file : FStream) : Report :=
  match locateWith lookup env file with
  | (.error e, file) => ⟨none, .failure e, file⟩
  | (.ok loc, file) =>
    let s1 := scanRich env loc.pe_offset loc.dosexe_offset file
    let roffset := s1.1
    if roffset = 0 then ⟨some loc.machine, .failure .RichSignatureNotFound, s1.2⟩ else
    let rk := readDword env s1.2 roffset
    let key := rk.1
    let s2 := scanDans env key loc.pe_offset loc.dosexe_offset rk.2
    let doffset := s2.1
    if doffset = 0 then ⟨some loc.machine, .failure .DansTokenNotFound, s2.2⟩ else
    let roffset := roffset + 4
    if roffset > loc.pe_offset then
      ⟨some loc.machine, .failure .RichHeaderOverrunsPEHeader, s2.2⟩
    else
      let d := decodeRichheader env s2.2 doffset roffset key descriptions
      ⟨some loc.machine, .decoded d.1, d.2⟩

/-- The two bounds of a location result, without the machine name. -/
def bounds (r : Except Error Located) : Except Error (Nat × Nat) :=
  match r with
  | .error e => .error e
  | .ok loc => .ok (loc.dosexe_offset, loc.pe_offset)

/-- The value `readDword` returns from its `k`-th read call when the stream
delivers no byte: the dword found in the uninitialised `buf`. -/
def staleDword (env : Env) (k : Nat) : Nat :=
  toULong env (toInt32 (env.stale k 0 % 256 ||| (env.stale k 1 % 256) <<< 8 |||
    (env.stale k 2 % 256) <<< 16 ||| (env.stale k 3 % 256) <<< 24))

/-- A platform with a 32-bit `unsigned long` on which the buffer of the `k`-th
read call holds, before the call, the bytes of the `k`-th dword of the list,
least significant byte first. -/
def Env.staleDwords (dwords : List Nat) : Env :=
  ⟨32, fun k i => (dwords.getD k 0 >>> (8 * i)) % 256, fun _ => 0⟩

/-- A complete image whose stub, from `0x40` to the PE header at `0x60`,
holds zeros only. -/
def noRichPE : List Nat := dosHeader 0x60 ++ List.replicate 32 0 ++ peHeader

/-- An image cut right after its PE signature: zeros from `0x40`, "Rich" at
`0x58`, the key 0 at `0x5C`, the PE signature at `0x60`, and no machine
word. -/
def truncatedRichPE : List Nat :=
  dosHeader 0x60 ++ List.replicate 24 0 ++ dwordBytes 0x68636952 ++ dwordBytes 0 ++
    [0x50, 0x45, 0, 0]

/-- The first 62 bytes of a DOS header: the MZ word, four header paragraphs,
and the offset `0x60` of a PE header that the file does not hold. -/
def cutHeader : List Nat := (dosHeader 0x60).take 62

/-- The content of the uninitialised buffers, read call by read call, that
makes the pass over `cutHeader` go on after the end of the file: the PE
signature for the sixth call, the machine word of x64, six zero dwords,
"Rich", the key 0, "DanS", and the pair `(0x00010002, 3)`. -/
def cutHeaderBuffers : List Nat :=
  [0, 0, 0, 0, 0, 0x4550, 0x8664, 0, 0, 0, 0, 0, 0, 0x68636952, 0, 0x536E6144, 0x00010002, 3]

/-! # Theorems -/

/-! ## Reading from the stream -/

theorem byteAt_lt (bytes : List Nat) (p : Nat) : byteAt bytes p < 256 :=
  Nat.mod_lt _ (by decide)

theorem le16At_lt (bytes : List Nat) (p : Nat) : le16At bytes p < 2 ^ 16 := by
  have h0 := byteAt_lt bytes p
  have h1 := byteAt_lt bytes (p + 1)
  unfold le16At
  omega

theorem le32At_lt (bytes : List Nat) (p : Nat) : le32At bytes p < 2 ^ 32 := by
  have h0 := byteAt_lt bytes p
  have h1 := byteAt_lt bytes (p + 1)
  have h2 := byteAt_lt bytes (p + 2)
  have h3 := byteAt_lt bytes (p + 3)
  unfold le32At
  omega

theorem getD_window (l : List Nat) (f : Nat → Nat) (pos n i : Nat) (hi : i < n)
    (hn : pos + n ≤ l.length) :
    (((l.drop pos).take n).map f).getD i 0 = f (l.getD (pos + i) 0) := by
  have h1 : pos + i < l.length := by omega
  simp [List.getD_eq_getElem?_getD, List.getElem?_map, List.getElem?_take, hi,
    List.getElem?_drop, List.getElem?_eq_getElem h1]

theorem readBuf_good (env : Env) (file : FStream) (pos n : Nat) (hf : file.failed = false)
    (hn : pos + n ≤ file.size) :
    readBuf env file pos n =
      (((file.bytes.drop pos).take n).map (fun b => b % 256),
        { file with reads := (pos, n) :: file.reads }) := by
  have hlen : (((file.bytes.drop pos).take n).map (fun b => b % 256)).length = n := by
    simp [FStream.size] at hn ⊢
    omega
  simp only [readBuf, hf, hlen]
  simp

theorem readBuf_bytes (env : Env) (file : FStream) (pos n : Nat) :
    (readBuf env file pos n).2.bytes = file.bytes := by
  unfold readBuf
  split <;> rfl

/-- The fail bit after a read is set exactly when it was set before or the
file does not reach `pos + n`. -/
theorem readBuf_failed (env : Env) (file : FStream) (pos n : Nat) (h0 : 0 < n) :
    (readBuf env file pos n).2.failed = (file.failed || decide (file.size < pos + n)) := by
  unfold readBuf
  cases hf : file.failed
  · simp [FStream.size]
    omega
  · simp

theorem or_bytes2 (a b : Nat) (ha : a < 256) : a ||| b <<< 8 = a + 2 ^ 8 * b := by
  rw [Nat.shiftLeft_eq, Nat.lor_comm, Nat.mul_comm, ← Nat.mul_add_lt_is_or (by simpa using ha)]
  omega

theorem or_bytes4 (a b c d : Nat) (ha : a < 256) (hb : b < 256) (hc : c < 256) :
    a ||| b <<< 8 ||| c <<< 16 ||| d <<< 24 = a + 2 ^ 8 * b + 2 ^ 16 * c + 2 ^ 24 * d := by
  have h1 : a ||| b <<< 8 = a + 2 ^ 8 * b := or_bytes2 a b ha
  have h2 : a + 2 ^ 8 * b < 2 ^ 16 := by omega
  have h3 : (a + 2 ^ 8 * b) ||| c <<< 16 = a + 2 ^ 8 * b + 2 ^ 16 * c := by
    rw [Nat.shiftLeft_eq, Nat.lor_comm, Nat.mul_comm, ← Nat.mul_add_lt_is_or h2]
    omega
  have h4 : a + 2 ^ 8 * b + 2 ^ 16 * c < 2 ^ 24 := by omega
  rw [h1, h3, Nat.shiftLeft_eq, Nat.lor_comm, Nat.mul_comm, ← Nat.mul_add_lt_is_or h4]
  omega

/-- On a good stream with two bytes left at `pos`, `readWord` returns their
little-endian value and only extends the read log. -/
theorem readWord_good (env : Env) (file : FStream) (pos : Nat) (hf : file.failed = false)
    (hn : pos + 2 ≤ file.size) :
    readWord env file pos =
      (le16At file.bytes pos, { file with reads := (pos, 2) :: file.reads }) := by
  have h0 := byteAt_lt file.bytes pos
  have h1 := byteAt_lt file.bytes (pos + 1)
  simp only [readWord, readBuf_good env file pos 2 hf hn]
  rw [getD_window _ _ pos 2 0 (by decide) hn, getD_window _ _ pos 2 1 (by decide) hn]
  simp only [Nat.add_zero]
  change ((byteAt file.bytes pos ||| byteAt file.bytes (pos + 1) <<< 8) % 2 ^ 16, _) = _
  rw [or_bytes2 _ _ h0, Nat.mod_eq_of_lt (by omega)]
  rfl

/-- The value `readDword` builds from a 32-bit pattern: the pattern itself
when its top bit is clear, and the pattern with all higher bits of the
`unsigned long` set when its top bit is set. -/
theorem toULong_toInt32 (env : Env) (n : Nat) (hn : n < 2 ^ 32) (hw : 32 ≤ env.ulongBits) :
    toULong env (toInt32 n) = if n < 2 ^ 31 then n else n + (2 ^ env.ulongBits - 2 ^ 32) := by
  have hpow : (2 : Nat) ^ 32 ≤ 2 ^ env.ulongBits := Nat.pow_le_pow_right (by decide) hw
  have hcast : ((2 : Int) ^ env.ulongBits) = ((2 ^ env.ulongBits : Nat) : Int) := by norm_cast
  unfold toULong toInt32
  rw [Nat.mod_eq_of_lt hn, hcast]
  generalize 2 ^ env.ulongBits = W at *
  split
  · rw [Int.emod_eq_of_lt (by omega) (by omega)]
    simp
  · have : ((n : Int) - 2 ^ 32) % (W : Int) = ((n + (W - 2 ^ 32) : Nat) : Int) := by
      rw [← Int.add_mul_emod_self (b := 1), Int.emod_eq_of_lt] <;> omega
    rw [this]
    exact Int.toNat_ofNat _

/-- On a good stream with four bytes left at `pos`, `readDword` returns the
conversion of their little-endian value through `int`, and only extends the
read log. -/
theorem readDword_good (env : Env) (file : FStream) (pos : Nat) (hf : file.failed = false)
    (hn : pos + 4 ≤ file.size) :
    readDword env file pos =
      (toULong env (toInt32 (le32At file.bytes pos)),
        { file with reads := (pos, 4) :: file.reads }) := by
  have h0 := byteAt_lt file.bytes pos
  have h1 := byteAt_lt file.bytes (pos + 1)
  have h2 := byteAt_lt file.bytes (pos + 2)
  simp only [readDword, readBuf_good env file pos 4 hf hn]
  rw [getD_window _ _ pos 4 0 (by decide) hn, getD_window _ _ pos 4 1 (by decide) hn,
    getD_window _ _ pos 4 2 (by decide) hn, getD_window _ _ pos 4 3 (by decide) hn]
  simp only [Nat.add_zero]
  change (toULong env (toInt32 (byteAt file.bytes pos ||| byteAt file.bytes (pos + 1) <<< 8 |||
    byteAt file.bytes (pos + 2) <<< 16 ||| byteAt file.bytes (pos + 3) <<< 24)), _) = _
  rw [or_bytes4 _ _ _ _ h0 h1 h2]
  rfl

theorem readWord_bytes (env : Env) (file : FStream) (pos : Nat) :
    (readWord env file pos).2.bytes = file.bytes := readBuf_bytes env file pos 2

theorem readDword_bytes (env : Env) (file : FStream) (pos : Nat) :
    (readDword env file pos).2.bytes = file.bytes := readBuf_bytes env file pos 4

theorem readWord_failed (env : Env) (file : FStream) (pos : Nat) :
    (readWord env file pos).2.failed = (file.failed || decide (file.size < pos + 2)) :=
  readBuf_failed env file pos 2 (by decide)

theorem readDword_failed (env : Env) (file : FStream) (pos : Nat) :
    (readDword env file pos).2.failed = (file.failed || decide (file.size < pos + 4)) :=
  readBuf_failed env file pos 4 (by decide)

theorem readWord_size (env : Env) (file : FStream) (pos : Nat) :
    (readWord env file pos).2.size = file.size := by
  simp [FStream.size, readWord_bytes]

theorem readDword_size (env : Env) (file : FStream) (pos : Nat) :
    (readDword env file pos).2.size = file.size := by
  simp [FStream.size, readDword_bytes]

theorem readWord_lt (env : Env) (file : FStream) (pos : Nat) :
    (readWord env file pos).1 < 2 ^ 16 :=
  Nat.mod_lt _ (by decide)

/-- The value of `readDword` on a good stream with four bytes left, for any
`unsigned long` of at least 32 bits: the little-endian value of the bytes,
with the bits above bit 31 set when the last byte is `0x80` or more. -/
theorem readDword_value (env : Env) (file : FStream) (pos : Nat) (hw : 32 ≤ env.ulongBits)
    (hf : file.failed = false) (hn : pos + 4 ≤ file.size) :
    (readDword env file pos).1 =
      if le32At file.bytes pos < 2 ^ 31 then le32At file.bytes pos
      else le32At file.bytes pos + (2 ^ env.ulongBits - 2 ^ 32) := by
  rw [readDword_good env file pos hf hn]
  exact toULong_toInt32 env _ (le32At_lt _ _) hw

/-- With a 32-bit `unsigned long`, `readDword` returns the little-endian value
of the four bytes. -/
theorem readDword_value_ulong32 (env : Env) (file : FStream) (pos : Nat)
    (hw : env.ulongBits = 32) (hf : file.failed = false) (hn : pos + 4 ≤ file.size) :
    (readDword env file pos).1 = le32At file.bytes pos := by
  rw [readDword_value env file pos (by omega) hf hn, hw]
  split <;> simp

/-- A dword read from the file equals a constant with a clear top bit exactly
when the four bytes spell that constant. -/
theorem readDword_eq_const (env : Env) (file : FStream) (pos c : Nat) (hw : 32 ≤ env.ulongBits)
    (hf : file.failed = false) (hn : pos + 4 ≤ file.size) (hc : c < 2 ^ 31) :
    (readDword env file pos).1 = c ↔ le32At file.bytes pos = c := by
  rw [readDword_value env file pos hw hf hn]
  have hpow : (2 : Nat) ^ 32 ≤ 2 ^ env.ulongBits := Nat.pow_le_pow_right (by decide) hw
  have := le32At_lt file.bytes pos
  split <;> omega

/-- C6 (code defect): on a platform whose `unsigned long` has 64 bits,
`readDword` on the four available bytes `00 00 00 80` returns
`0xFFFFFFFF80000000`, not their little-endian value `0x80000000`: the `int`
built from the bytes is negative and its conversion sets the upper 32 bits. -/
theorem readDword_sign_extends_top_byte :
    (readDword Env.ulong64 (FStream.opened [0x00, 0x00, 0x00, 0x80]) 0).1 = 0xFFFFFFFF80000000 ∧
    le32At [0x00, 0x00, 0x00, 0x80] 0 = 0x80000000 ∧
    ¬ (readDword Env.ulong64 (FStream.opened [0x00, 0x00, 0x00, 0x80]) 0).1 < 2 ^ 32 := by
  decide

/-- C5 (counterexample): on an empty file `readWord` at offset 0 does not
fail; it returns `0x5A4D`, built from the two bytes its buffer held before
the call.  On a file of two bytes `readDword` at offset 0 returns `0x4550`,
the upper two bytes being those its buffer held before the call. -/
theorem readWord_value_from_unread_bytes :
    (FStream.opened []).size < 0 + 2 ∧
    readWord Env.staleMZ (FStream.opened []) 0 = (0x5A4D, ⟨[], true, [(0, 0)]⟩) ∧
    (FStream.opened [0x50, 0x45]).size < 0 + 4 ∧
    readDword Env.ulong32 (FStream.opened [0x50, 0x45]) 0 =
      (0x4550, ⟨[0x50, 0x45], true, [(0, 2)]⟩) := by
  decide

/-- C5 (amended): `readWord` and `readDword` return a value in every case and
report no failure of their own; after the call the stream's fail bit is set
exactly when it was set before or fewer than 2 (respectively 4) bytes remain
at the requested offset. -/
theorem read_past_end_sets_failbit (env : Env) (file : FStream) (pos : Nat) :
    (readWord env file pos).2.failed = (file.failed || decide (file.size < pos + 2)) ∧
    (readDword env file pos).2.failed = (file.failed || decide (file.size < pos + 4)) ∧
    (readWord env file pos).2.bytes = file.bytes ∧
    (readDword env file pos).2.bytes = file.bytes :=
  ⟨readWord_failed env file pos, readDword_failed env file pos, readWord_bytes env file pos,
    readDword_bytes env file pos⟩

/-- C7: for 16-bit `reloc_offset` and `num_relocs` the computed start of the
DOS stub is the least multiple of 16 that is at least
`reloc_offset + 4 * num_relocs`, the sum being taken without wrap-around; it
equals the sum when the sum is a multiple of 16 and exceeds it by less than
16.  It stays below `2 ^ 19`, far inside the range of an `int`. -/
theorem dosStubStart_least_multiple (reloc_offset num_relocs : Nat)
    (hr : reloc_offset < 2 ^ 16) (hn : num_relocs < 2 ^ 16) :
    16 ∣ dosStubStart reloc_offset num_relocs ∧
    reloc_offset + 4 * num_relocs ≤ dosStubStart reloc_offset num_relocs ∧
    (∀ m, 16 ∣ m → reloc_offset + 4 * num_relocs ≤ m → dosStubStart reloc_offset num_relocs ≤ m) ∧
    (16 ∣ reloc_offset + 4 * num_relocs →
      dosStubStart reloc_offset num_relocs = reloc_offset + 4 * num_relocs) ∧
    dosStubStart reloc_offset num_relocs < reloc_offset + 4 * num_relocs + 16 ∧
    dosStubStart reloc_offset num_relocs < 2 ^ 19 := by
  unfold dosStubStart
  simp only []
  refine ⟨?_, ?_, ?_, ?_, ?_, ?_⟩ <;> intros <;> split <;> split <;> omega

/-- C7 (witness): `(0x41, 0)` gives `0x50`, and `(0x40, 0)` gives `0x40`. -/
theorem dosStubStart_least_multiple_witness :
    (16 ∣ dosStubStart 0x41 0 ∧
    0x41 + 4 * 0 ≤ dosStubStart 0x41 0 ∧
    (∀ m, 16 ∣ m → 0x41 + 4 * 0 ≤ m → dosStubStart 0x41 0 ≤ m) ∧
    (16 ∣ 0x41 + 4 * 0 → dosStubStart 0x41 0 = 0x41 + 4 * 0) ∧
    dosStubStart 0x41 0 < 0x41 + 4 * 0 + 16 ∧
    dosStubStart 0x41 0 < 2 ^ 19) ∧
    dosStubStart 0x41 0 = 0x50 ∧ dosStubStart 0x40 0 = 0x40 :=
  ⟨dosStubStart_least_multiple 0x41 0 (by decide) (by decide), by decide, by decide⟩

/-- The location phase on a good stream whose DOS header is complete: the
three DOS checks are decided by the words of the file, and the PE signature is
read from a stream that is still good and holds the same bytes. -/
theorem locate_good (env : Env) (file : FStream) (hf : file.failed = false)
    (hsz : 0x3E ≤ file.size) :
    ∃ g : FStream, g.failed = false ∧ g.bytes = file.bytes ∧
      locate env file =
        if le16At file.bytes 0 ≠ 0x5a4d then (.error .NotAnExecutable, (readWord env file 0).2)
        else if le16At file.bytes 8 < 4 then
          (.error .MalformedDosHeader,
            (readWord env (readWord env (readWord env file 0).2 6).2 8).2)
        else if le16At file.bytes 0x3c < le16At file.bytes 8 * 16 then
          (.error .MalformedDosHeader, g)
        else if (readDword env g (le16At file.bytes 0x3c)).1 ≠ 0x4550 then
          (.error .NotAPEImage, (readDword env g (le16At file.bytes 0x3c)).2)
        else
          (.ok ⟨getMachineType (readWord env (readDword env g (le16At file.bytes 0x3c)).2
              (le16At file.bytes 0x3c + 4)).1,
            dosStubStart (le16At file.bytes 0x18) (le16At file.bytes 6),
            le16At file.bytes 0x3c⟩,
           (readWord env (readDword env g (le16At file.bytes 0x3c)).2
              (le16At file.bytes 0x3c + 4)).2) := by
  have e0 := readWord_good env file 0 hf (by omega)
  have e1 := readWord_good env (readWord env file 0).2 6 (by rw [e0]; exact hf)
    (by rw [readWord_size]; omega)
  have e2 := readWord_good env (readWord env (readWord env file 0).2 6).2 8
    (by rw [e1, e0]; exact hf) (by rw [readWord_size, readWord_size]; omega)
  have e3 := readWord_good env (readWord env (readWord env (readWord env file 0).2 6).2 8).2 0x18
    (by rw [e2, e1, e0]; exact hf) (by rw [readWord_size, readWord_size, readWord_size]; omega)
  have e4 := readWord_good env
    (readWord env (readWord env (readWord env (readWord env file 0).2 6).2 8).2 0x18).2 0x3c
    (by rw [e3, e2, e1, e0]; exact hf)
    (by rw [readWord_size, readWord_size, readWord_size, readWord_size]; omega)
  refine ⟨(readWord env
    (readWord env (readWord env (readWord env (readWord env file 0).2 6).2 8).2 0x18).2 0x3c).2,
    ?_, ?_, ?_⟩
  · rw [e4, e3, e2, e1, e0]; exact hf
  · simp only [readWord_bytes]
  · have v0 : (readWord env file 0).1 = le16At file.bytes 0 := by rw [e0]
    have v1 : (readWord env (readWord env file 0).2 6).1 = le16At file.bytes 6 := by
      rw [e1]; simp only [readWord_bytes]
    have v2 : (readWord env (readWord env (readWord env file 0).2 6).2 8).1 =
        le16At file.bytes 8 := by
      rw [e2]; simp only [readWord_bytes]
    have v3 : (readWord env (readWord env (readWord env (readWord env file 0).2 6).2 8).2 0x18).1 =
        le16At file.bytes 0x18 := by
      rw [e3]; simp only [readWord_bytes]
    have v4 : (readWord env (readWord env (readWord env (readWord env
        (readWord env file 0).2 6).2 8).2 0x18).2 0x3c).1 = le16At file.bytes 0x3c := by
      rw [e4]; simp only [readWord_bytes]
    simp only [locate, v0, v1, v2, v3, v4]

/-- C2: on a good stream whose DOS header is complete, the location phase
reports the first check that fails, in the order MZ word, header paragraphs,
PE offset, PE signature (the last two when the four bytes at the PE offset are
in the file), and it succeeds exactly when none fails, with `pe_offset` the
word at offset `0x3C`. -/
theorem locate_decision_order (env : Env) (file : FStream) (hw : 32 ≤ env.ulongBits)
    (hf : file.failed = false) (hsz : 0x3E ≤ file.size) :
    (le16At file.bytes 0 ≠ 0x5A4D → (locate env file).1 = .error .NotAnExecutable) ∧
    (le16At file.bytes 0 = 0x5A4D → le16At file.bytes 8 < 4 →
      (locate env file).1 = .error .MalformedDosHeader) ∧
    (le16At file.bytes 0 = 0x5A4D → 4 ≤ le16At file.bytes 8 →
      le16At file.bytes 0x3C < le16At file.bytes 8 * 16 →
      (locate env file).1 = .error .MalformedDosHeader) ∧
    (le16At file.bytes 0 = 0x5A4D → 4 ≤ le16At file.bytes 8 →
      le16At file.bytes 8 * 16 ≤ le16At file.bytes 0x3C →
      le16At file.bytes 0x3C + 4 ≤ file.size →
      le32At file.bytes (le16At file.bytes 0x3C) ≠ 0x00004550 →
      (locate env file).1 = .error .NotAPEImage) ∧
    (le16At file.bytes 0 = 0x5A4D → 4 ≤ le16At file.bytes 8 →
      le16At file.bytes 8 * 16 ≤ le16At file.bytes 0x3C →
      le16At file.bytes 0x3C + 4 ≤ file.size →
      le32At file.bytes (le16At file.bytes 0x3C) = 0x00004550 →
      ∃ loc, (locate env file).1 = .ok loc ∧ loc.pe_offset = le16At file.bytes 0x3C) ∧
    (∀ loc, (locate env file).1 = .ok loc → le16At file.bytes 0x3C + 4 ≤ file.size →
      le16At file.bytes 0 = 0x5A4D ∧ 4 ≤ le16At file.bytes 8 ∧
      le16At file.bytes 8 * 16 ≤ le16At file.bytes 0x3C ∧
      le32At file.bytes (le16At file.bytes 0x3C) = 0x00004550 ∧
      loc.pe_offset = le16At file.bytes 0x3C) := by
  obtain ⟨g, hg, hb, hloc⟩ := locate_good env file hf hsz
  have hsig : le16At file.bytes 0x3C + 4 ≤ file.size →
      ((readDword env g (le16At file.bytes 0x3C)).1 = 0x4550 ↔
        le32At file.bytes (le16At file.bytes 0x3C) = 0x4550) := by
    intro h
    rw [readDword_eq_const env g _ _ hw hg (by simpa [FStream.size, hb] using h) (by decide), hb]
  rw [hloc]
  refine ⟨?_, ?_, ?_, ?_, ?_, ?_⟩
  · intro h
    simp [h]
  · intro h1 h2
    simp [h1, h2]
  · intro h1 h2 h3
    simp [h1, Nat.not_lt.mpr h2, h3]
  · intro h1 h2 h3 h4 h5
    have := (hsig h4).not.mpr h5
    simp [h1, Nat.not_lt.mpr h2, Nat.not_lt.mpr h3, this]
  · intro h1 h2 h3 h4 h5
    have := (hsig h4).mpr h5
    simp [h1, Nat.not_lt.mpr h2, Nat.not_lt.mpr h3, this]
  · intro loc hl h4
    split at hl
    · simp at hl
    · split at hl
      · simp at hl
      · split at hl
        · simp at hl
        · split at hl
          · simp at hl
          · rename_i a1 a2 a3 a4
            simp only [Except.ok.injEq] at hl
            refine ⟨by simpa using a1, by omega, by omega, (hsig h4).mp (by simpa using a4), ?_⟩
            rw [← hl]

/-- C2 (witness): the minimal PE stub passes the four checks, and the
location phase succeeds on it with `pe_offset = 0x40`. -/
theorem locate_decision_order_witness :
    32 ≤ Env.ulong32.ulongBits ∧ (FStream.opened minimalPE).failed = false ∧
    0x3E ≤ (FStream.opened minimalPE).size ∧
    ∃ loc, (locate Env.ulong32 (FStream.opened minimalPE)).1 = .ok loc ∧ loc.pe_offset = 0x40 :=
  ⟨by decide, rfl, by decide,
    (locate_decision_order Env.ulong32 (FStream.opened minimalPE) (by decide) rfl
      (by decide)).2.2.2.2.1 (by decide) (by decide) (by decide) (by decide) (by decide)⟩

theorem locate_bytes (env : Env) (file : FStream) : (locate env file).2.bytes = file.bytes := by
  unfold locate
  simp only []
  split
  · simp only [readWord_bytes]
  · split
    · simp only [readWord_bytes]
    · split
      · simp only [readWord_bytes]
      · split <;> simp only [readWord_bytes, readDword_bytes]

/-- When the location phase succeeds and leaves the stream good, the stream
was good before and the file reaches past the machine word of the PE header. -/
theorem locate_ok_good (env : Env) (file : FStream) (loc : Located)
    (hloc : (locate env file).1 = .ok loc) (hgood : (locate env file).2.failed = false) :
    loc.pe_offset + 6 ≤ file.size := by
  unfold locate at hloc hgood
  simp only [] at hloc hgood
  split at hloc
  · simp at hloc
  · split at hloc
    · simp at hloc
    · split at hloc
      · simp at hloc
      · split at hloc
        · simp at hloc
        · rename_i a1 a2 a3 a4
          simp only [a1, a2, a3, a4, if_false] at hgood
          simp only [Except.ok.injEq] at hloc
          rw [readWord_failed] at hgood
          simp only [Bool.or_eq_false_iff, decide_eq_false_iff_not] at hgood
          have hpe := congrArg Located.pe_offset hloc
          simp only [readDword_size, readWord_size] at hgood hpe
          omega

theorem scanRich_failed (env : Env) (pe_offset : Nat) :
    ∀ (n i : Nat) (file : FStream), pe_offset - i ≤ n → file.failed = true →
      (scanRich env pe_offset i file).2.failed = true := by
  intro n
  induction n with
  | zero =>
    intro i file hn hf
    rw [scanRich, if_neg (by omega)]
    exact hf
  | succ n ih =>
    intro i file hn hf
    rw [scanRich]
    have hr : (readDword env file i).2.failed = true := by rw [readDword_failed, hf]; rfl
    split
    · simp only []
      split
      · exact hr
      · exact ih _ _ (by omega) hr
    · exact hf

theorem scanDans_failed (env : Env) (key pe_offset : Nat) :
    ∀ (n i : Nat) (file : FStream), pe_offset - i ≤ n → file.failed = true →
      (scanDans env key pe_offset i file).2.failed = true := by
  intro n
  induction n with
  | zero =>
    intro i file hn hf
    rw [scanDans, if_neg (by omega)]
    exact hf
  | succ n ih =>
    intro i file hn hf
    rw [scanDans]
    have hr : (readDword env file i).2.failed = true := by rw [readDword_failed, hf]; rfl
    split
    · simp only []
      split
      · exact hr
      · exact ih _ _ (by omega) hr
    · exact hf

theorem decodeLoop_failed (env : Env) (descriptions : StrMap) (key : Nat) (endp : Int) :
    ∀ (n cur : Nat) (file : FStream), (endp - cur).toNat ≤ n → file.failed = true →
      (decodeLoop env descriptions key endp cur file).2.failed = true := by
  intro n
  induction n with
  | zero =>
    intro cur file hn hf
    rw [decodeLoop, if_neg (by omega)]
    exact hf
  | succ n ih =>
    intro cur file hn hf
    rw [decodeLoop]
    split
    · apply ih
      · omega
      · rw [readDword_failed, readDword_failed, hf]; rfl
    · exact hf

/-- The diagnostics of the location phase. -/
theorem locate_error_kinds (env : Env) (file : FStream) (e : Error)
    (h : (locate env file).1 = .error e) :
    e = .NotAnExecutable ∨ e = .MalformedDosHeader ∨ e = .NotAPEImage := by
  unfold locate at h
  simp only [] at h
  split at h
  · simp only [Except.error.injEq] at h; exact Or.inl h.symm
  · split at h
    · simp only [Except.error.injEq] at h; exact Or.inr (Or.inl h.symm)
    · split at h
      · simp only [Except.error.injEq] at h; exact Or.inr (Or.inl h.symm)
      · split at h
        · simp only [Except.error.injEq] at h; exact Or.inr (Or.inr h.symm)
        · simp at h

/-- On a file shorter than 64 bytes the location phase stops at the MZ check
or at a DOS header check, or else its read of the PE signature runs past the
end of the file. -/
theorem locate_short (env : Env) (file : FStream) (hsz : file.size < 64) :
    (locate env file).1 = .error .NotAnExecutable ∨
    (locate env file).1 = .error .MalformedDosHeader ∨
    (locate env file).2.failed = true := by
  unfold locate
  simp only []
  split
  · exact Or.inl rfl
  · split
    · exact Or.inr (Or.inl rfl)
    · split
      · exact Or.inr (Or.inl rfl)
      · rename_i a1 a2 a3
        have h5 : (readDword env (readWord env (readWord env (readWord env (readWord env
            (readWord env file 0).2 6).2 8).2 0x18).2 0x3c).2
            (readWord env (readWord env (readWord env (readWord env
            (readWord env file 0).2 6).2 8).2 0x18).2 0x3c).1).2.failed = true := by
          rw [readDword_failed]
          simp only [readWord_size, Bool.or_eq_true, decide_eq_true_eq]
          right
          omega
        refine Or.inr (Or.inr ?_)
        split
        · exact h5
        · simp only [readWord_failed, h5, Bool.true_or]

/-- Whatever the uninitialised buffers hold, on a file shorter than 64 bytes
the pass ends with `NotAnExecutable` or `MalformedDosHeader`, or a read has
run past the end of the file and set the stream's fail bit; in no case does
it end with `TruncatedRead`, a diagnostic the code does not have. -/
theorem getRichheader_short_file (env : Env) (descriptions : StrMap) (file : FStream)
    (hsz : file.size < 64) :
    ((getRichheader env descriptions file).outcome = .failure .NotAnExecutable ∨
      (getRichheader env descriptions file).outcome = .failure .MalformedDosHeader ∨
      (getRichheader env descriptions file).file.failed = true) ∧
    (getRichheader env descriptions file).outcome ≠ .failure .TruncatedRead := by
  have hs := locate_short env file hsz
  have hk := locate_error_kinds env file
  unfold getRichheader
  cases hl : locate env file with
  | mk r g =>
    rw [hl] at hs hk
    simp only at hs hk
    cases r with
    | error e =>
      simp only
      refine ⟨?_, ?_⟩
      · rcases hs with h | h | h
        · left; simpa using h
        · right; left; simpa using h
        · right; right; exact h
      · rcases hk e rfl with h | h | h <;> simp [h]
    | ok loc =>
      simp only
      have hg : g.failed = true := by
        rcases hs with h | h | h
        · simp at h
        · simp at h
        · exact h
      have h1 := scanRich_failed env loc.pe_offset _ loc.dosexe_offset g (Nat.le_refl _) hg
      have h2 : (readDword env (scanRich env loc.pe_offset loc.dosexe_offset g).2
          (scanRich env loc.pe_offset loc.dosexe_offset g).1).2.failed = true := by
        rw [readDword_failed, h1]; rfl
      have h3 := scanDans_failed env (readDword env
        (scanRich env loc.pe_offset loc.dosexe_offset g).2
        (scanRich env loc.pe_offset loc.dosexe_offset g).1).1 loc.pe_offset _ loc.dosexe_offset _
        (Nat.le_refl _) h2
      split
      · exact ⟨Or.inr (Or.inr h1), by simp⟩
      · split
        · exact ⟨Or.inr (Or.inr h3), by simp⟩
        · split
          · exact ⟨Or.inr (Or.inr h3), by simp⟩
          · refine ⟨Or.inr (Or.inr ?_), by simp⟩
            exact decodeLoop_failed env descriptions _ _ _ _ _ (Nat.le_refl _) h3

theorem decodeLoop_step (env : Env) (descriptions : StrMap) (key : Nat) (endp : Int) (cur : Nat)
    (file : FStream) (h : (cur : Int) < endp) :
    decodeLoop env descriptions key endp cur file =
      (⟨(readDword env file cur).1 ^^^ key, ((readDword env file cur).1 ^^^ key) >>> 16,
          ((readDword env file cur).1 ^^^ key) &&& 0xFFFF,
          (readDword env (readDword env file cur).2 (cur + 4)).1 ^^^ key,
          descriptions.find ((readDword env file cur).1 ^^^ key)⟩ ::
        (decodeLoop env descriptions key endp (cur + 8)
          (readDword env (readDword env file cur).2 (cur + 4)).2).1,
       (decodeLoop env descriptions key endp (cur + 8)
          (readDword env (readDword env file cur).2 (cur + 4)).2).2) := by
  rw [decodeLoop, if_pos h]

theorem decodeLoop_done (env : Env) (descriptions : StrMap) (key : Nat) (endp : Int) (cur : Nat)
    (file : FStream) (h : ¬ (cur : Int) < endp) :
    decodeLoop env descriptions key endp cur file = ([], file) := by
  rw [decodeLoop, if_neg h]

theorem dwordBytes_length (n : Nat) : (dwordBytes n).length = 4 := rfl

theorem byteAt_append_mid (pre l post : List Nat) (i : Nat) (hi : i < l.length) :
    byteAt (pre ++ l ++ post) (pre.length + i) = l.getD i 0 % 256 := by
  unfold byteAt
  rw [List.getD_eq_getElem?_getD, List.getD_eq_getElem?_getD, List.append_assoc,
    List.getElem?_append_right (by omega)]
  simp only [Nat.add_sub_cancel_left]
  rw [List.getElem?_append_left hi]

/-- The four bytes of a dword, placed anywhere in a file, read back
little-endian as the dword (modulo `2 ^ 32`). -/
theorem le32At_dwordBytes (pre post : List Nat) (n : Nat) :
    le32At (pre ++ dwordBytes n ++ post) pre.length = n % 2 ^ 32 := by
  have h0 := byteAt_append_mid pre (dwordBytes n) post 0 (by simp [dwordBytes])
  have h1 := byteAt_append_mid pre (dwordBytes n) post 1 (by simp [dwordBytes])
  have h2 := byteAt_append_mid pre (dwordBytes n) post 2 (by simp [dwordBytes])
  have h3 := byteAt_append_mid pre (dwordBytes n) post 3 (by simp [dwordBytes])
  simp only [Nat.add_zero] at h0
  unfold le32At
  rw [h0, h1, h2, h3]
  simp only [dwordBytes, List.getD_cons_zero, List.getD_cons_succ]
  omega

theorem pack_lt (a b : Nat) (hb : b < 2 ^ 16) :
    a <<< 16 ||| b = 2 ^ 16 * a + b := by
  rw [Nat.shiftLeft_eq, Nat.mul_comm, ← Nat.mul_add_lt_is_or hb]

theorem id_of_pack (a b : Nat) (hb : b < 2 ^ 16) :
    (a <<< 16 ||| b) >>> 16 = a := by
  rw [pack_lt a b hb, Nat.shiftRight_eq_div_pow]
  omega

theorem minver_of_pack (a b : Nat) (hb : b < 2 ^ 16) :
    (a <<< 16 ||| b) &&& 0xFFFF = b := by
  rw [pack_lt a b hb]
  have := Nat.and_pow_two_sub_one_eq_mod (2 ^ 16 * a + b) 16
  simp only [Nat.reducePow, Nat.reduceSub] at this ⊢
  rw [this]
  omega

theorem encodeEntry_length (key : Nat) (e : Nat × Nat × Nat) : (encodeEntry key e).length = 8 :=
  rfl

theorem encodeEntries_length (key : Nat) (entries : List (Nat × Nat × Nat)) :
    (encodeEntries key entries).length = 8 * entries.length := by
  induction entries with
  | nil => rfl
  | cons e es ih =>
    simp only [encodeEntries, List.length_append, encodeEntry_length, ih, List.length_cons]
    omega

/-- The decode loop over an encoded entry table, with a 32-bit
`unsigned long`: the rows carry the encoded entries, in order. -/
theorem decodeLoop_encodeEntries (env : Env) (descriptions : StrMap) (key : Nat)
    (hw : env.ulongBits = 32) (hkey : key < 2 ^ 32) :
    ∀ (entries : List (Nat × Nat × Nat)) (pre post : List Nat) (file : FStream),
      (∀ e ∈ entries, e.1 < 2 ^ 16 ∧ e.2.1 < 2 ^ 16 ∧ e.2.2 < 2 ^ 32) →
      file.failed = false → file.bytes = pre ++ encodeEntries key entries ++ post →
      (decodeLoop env descriptions key ((pre.length + 8 * entries.length : Nat) : Int)
        pre.length file).1.map RichEntry.fields = entries := by
  intro entries
  induction entries with
  | nil =>
    intro pre post file _ _ _
    rw [decodeLoop_done _ _ _ _ _ _ (by simp)]
    rfl
  | cons e es ih =>
    intro pre post file hb hf hbytes
    obtain ⟨h1, h2, h3⟩ := hb e (List.mem_cons_self _ _)
    have hlen := encodeEntries_length key es
    have hsize : file.size = pre.length + (8 + 8 * es.length) + post.length := by
      simp only [FStream.size, hbytes, List.length_append, encodeEntries, encodeEntry_length, hlen]
    -- the first dword
    have hpk : e.1 <<< 16 ||| e.2.1 < 2 ^ 32 := by
      rw [pack_lt _ _ h2]; omega
    have hr1 : (readDword env file pre.length).1 = (e.1 <<< 16 ||| e.2.1) ^^^ key := by
      rw [readDword_value_ulong32 env file _ hw hf (by omega), hbytes]
      have : pre ++ encodeEntries key (e :: es) ++ post =
          pre ++ dwordBytes ((e.1 <<< 16 ||| e.2.1) ^^^ key) ++
            (dwordBytes (e.2.2 ^^^ key) ++ encodeEntries key es ++ post) := by
        simp only [encodeEntries, encodeEntry, List.append_assoc]
      rw [this, le32At_dwordBytes, Nat.mod_eq_of_lt (Nat.xor_lt_two_pow hpk hkey)]
    have hf1 : (readDword env file pre.length).2.failed = false := by
      rw [readDword_failed, hf]; simp; omega
    have hr2 : (readDword env (readDword env file pre.length).2 (pre.length + 4)).1 =
        e.2.2 ^^^ key := by
      rw [readDword_value_ulong32 env _ _ hw hf1 (by rw [readDword_size]; omega),
        readDword_bytes, hbytes]
      have : pre ++ encodeEntries key (e :: es) ++ post =
          (pre ++ dwordBytes ((e.1 <<< 16 ||| e.2.1) ^^^ key)) ++ dwordBytes (e.2.2 ^^^ key) ++
            (encodeEntries key es ++ post) := by
        simp only [encodeEntries, encodeEntry, List.append_assoc]
      have hl : pre.length + 4 =
          (pre ++ dwordBytes ((e.1 <<< 16 ||| e.2.1) ^^^ key)).length := by
        simp only [List.length_append, dwordBytes_length]
      rw [this, hl, le32At_dwordBytes, Nat.mod_eq_of_lt (Nat.xor_lt_two_pow h3 hkey)]
    have hf2 : (readDword env (readDword env file pre.length).2 (pre.length + 4)).2.failed =
        false := by
      rw [readDword_failed, hf1, readDword_size]; simp; omega
    have hb2 : (readDword env (readDword env file pre.length).2 (pre.length + 4)).2.bytes =
        (pre ++ encodeEntry key e) ++ encodeEntries key es ++ post := by
      rw [readDword_bytes, readDword_bytes, hbytes]
      simp only [encodeEntries, List.append_assoc]
    have htail := ih (pre ++ encodeEntry key e) post _
      (fun x hx => hb x (List.mem_cons_of_mem _ hx)) hf2 hb2
    have hcur : (pre ++ encodeEntry key e).length = pre.length + 8 := by
      simp only [List.length_append, encodeEntry_length]
    have hend : pre.length + 8 + 8 * es.length = pre.length + 8 * (e :: es).length := by
      rw [List.length_cons]; omega
    rw [hcur, hend] at htail
    rw [decodeLoop_step _ _ _ _ _ _ (by simp)]
    simp only [List.map_cons, htail, RichEntry.fields, hr1, hr2, Nat.xor_cancel_right,
      id_of_pack _ _ h2, minver_of_pack _ _ h2]

/-- Round trip with a 32-bit `unsigned long`: on a file that holds a
synthetic Rich header at `dans_offset` (the length of `pre`), the decode pass
with `start = dans_offset`, `endp = rich_sig_offset + 8` and the key prints
the encoded entries, in order. -/
theorem decodeRichheader_roundtrip_ulong32 (env : Env) (descriptions : StrMap) (key : Nat)
    (entries : List (Nat × Nat × Nat)) (pad pre post : List Nat) (file : FStream)
    (hw : env.ulongBits = 32) (hkey : key < 2 ^ 32)
    (hent : ∀ e ∈ entries, e.1 < 2 ^ 16 ∧ e.2.1 < 2 ^ 16 ∧ e.2.2 < 2 ^ 32)
    (hpad : pad.length = 12) (hf : file.failed = false)
    (hbytes : file.bytes = pre ++ encodeRichHeader key pad entries ++ post) :
    (decodeRichheader env file pre.length (pre.length + 16 + 8 * entries.length + 8) key
      descriptions).1.map RichEntry.fields = entries := by
  have hb : file.bytes = (pre ++ dwordBytes (0x536E6144 ^^^ key) ++ pad) ++
      encodeEntries key entries ++ (dwordBytes 0x68636952 ++ dwordBytes key ++ post) := by
    rw [hbytes]
    simp only [encodeRichHeader, List.append_assoc]
  have hl : (pre ++ dwordBytes (0x536E6144 ^^^ key) ++ pad).length = pre.length + 16 := by
    simp only [List.length_append, dwordBytes_length, hpad]
  have h := decodeLoop_encodeEntries env descriptions key hw hkey entries _ _ file hent hf hb
  rw [hl] at h
  unfold decodeRichheader
  have hc : (((pre.length + 16 + 8 * entries.length + 8 : Nat) : Int) - 8) =
      ((pre.length + 16 + 8 * entries.length : Nat) : Int) := by
    push_cast
    omega
  rw [hc]
  exact h

/-- C1 (code defect): with a 64-bit `unsigned long` the round trip fails.
Decoding the synthetic header of the specification (key `0xDEADBEEF`, entries
`(0x0019, 30729, 5)` and `(0x0104, 20706, 2)`) with that key prints the ids
`0xFFFFFFFF0019` and `0xFFFFFFFF0104` and counts above `2 ^ 32`; decoding the
header of the single entry `(0x8001, 2, 0x80000003)` under key 0 prints the
id `0xFFFFFFFF8001` and the count `0xFFFFFFFF80000003`. -/
theorem decodeRichheader_roundtrip_fails_ulong64 :
    (decodeRichheader Env.ulong64 (FStream.opened sampleHeader) 0 (0 + 16 + 8 * 2 + 8)
        0xDEADBEEF []).1.map RichEntry.fields =
      [(0xFFFFFFFF0019, 30729, 0xFFFFFFFF00000005), (0xFFFFFFFF0104, 20706, 0xFFFFFFFF00000002)] ∧
    (decodeRichheader Env.ulong64 (FStream.opened topBitHeader) 0 (0 + 16 + 8 * 1 + 8)
        0 []).1.map RichEntry.fields = [(0xFFFFFFFF8001, 2, 0xFFFFFFFF80000003)] := by
  constructor
  · rw [decodeRichheader, decodeLoop_step _ _ _ _ _ _ (by decide),
      decodeLoop_step _ _ _ _ _ _ (by decide), decodeLoop_done _ _ _ _ _ _ (by decide)]
    decide
  · rw [decodeRichheader, decodeLoop_step _ _ _ _ _ _ (by decide),
      decodeLoop_done _ _ _ _ _ _ (by decide)]
    decide

/-- The same two headers decode to their entries when `unsigned long` has 32
bits. -/
theorem decodeRichheader_roundtrip_samples_ulong32 :
    (decodeRichheader Env.ulong32 (FStream.opened sampleHeader) 0 (0 + 16 + 8 * 2 + 8)
        0xDEADBEEF []).1.map RichEntry.fields = [(0x0019, 30729, 5), (0x0104, 20706, 2)] ∧
    (decodeRichheader Env.ulong32 (FStream.opened topBitHeader) 0 (0 + 16 + 8 * 1 + 8)
        0 []).1.map RichEntry.fields = [(0x8001, 2, 0x80000003)] :=
  ⟨decodeRichheader_roundtrip_ulong32 Env.ulong32 [] 0xDEADBEEF
      [(0x0019, 30729, 5), (0x0104, 20706, 2)] (List.replicate 12 0) [] []
      (FStream.opened sampleHeader) rfl (by decide) (by decide) rfl rfl (by decide),
    decodeRichheader_roundtrip_ulong32 Env.ulong32 [] 0 [(0x8001, 2, 0x80000003)]
      (List.replicate 12 0) [] [] (FStream.opened topBitHeader) rfl (by decide) (by decide)
      rfl rfl (by decide)⟩

theorem toULong_lt (env : Env) (i : Int) : toULong env i < 2 ^ env.ulongBits := by
  unfold toULong
  have hpos : (0 : Int) < (2 : Int) ^ env.ulongBits := by positivity
  have h1 := Int.emod_lt_of_pos i hpos
  have h2 := Int.emod_nonneg i (ne_of_gt hpos)
  have hcast : ((2 : Int) ^ env.ulongBits) = ((2 ^ env.ulongBits : Nat) : Int) := by norm_cast
  rw [hcast] at h1 h2 ⊢
  omega

theorem readDword_lt (env : Env) (file : FStream) (pos : Nat) :
    (readDword env file pos).1 < 2 ^ env.ulongBits :=
  toULong_lt env _

theorem split_halves (v : Nat) : (v >>> 16) * 2 ^ 16 + (v &&& 0xFFFF) = v := by
  have := Nat.and_pow_two_sub_one_eq_mod v 16
  simp only [Nat.reducePow, Nat.reduceSub] at this ⊢
  rw [this, Nat.shiftRight_eq_div_pow]
  omega

theorem low_half_lt (v : Nat) : v &&& 0xFFFF < 2 ^ 16 := by
  have := Nat.and_pow_two_sub_one_eq_mod v 16
  simp only [Nat.reducePow, Nat.reduceSub] at this ⊢
  rw [this]
  omega

/-- Every row of the decode loop splits its `ver` into `id` (the bits from 16
up) and `minver` (the low 16 bits), and carries the description that the
table holds for `ver`. -/
theorem decodeLoop_entry_shape (env : Env) (descriptions : StrMap) (key : Nat) (endp : Int) :
    ∀ (n cur : Nat) (file : FStream), (endp - cur).toNat ≤ n →
      ∀ e ∈ (decodeLoop env descriptions key endp cur file).1,
        e.id = e.ver >>> 16 ∧ e.minver = e.ver &&& 0xFFFF ∧
        e.id * 2 ^ 16 + e.minver = e.ver ∧ e.minver < 2 ^ 16 ∧
        e.description = descriptions.find e.ver := by
  intro n
  induction n with
  | zero =>
    intro cur file hn e he
    rw [decodeLoop_done _ _ _ _ _ _ (by omega)] at he
    simp at he
  | succ n ih =>
    intro cur file hn e he
    by_cases hc : (cur : Int) < endp
    · rw [decodeLoop_step _ _ _ _ _ _ hc] at he
      simp only [List.mem_cons] at he
      rcases he with he | he
      · subst he
        exact ⟨rfl, rfl, split_halves _, low_half_lt _, rfl⟩
      · exact ih (cur + 8) _ (by omega) e he
    · rw [decodeLoop_done _ _ _ _ _ _ hc] at he
      simp at he

/-- Every row of the decode loop stays inside `unsigned long`; with 32 bits
that bounds `id` by `2 ^ 16` and the count by `2 ^ 32`. -/
theorem decodeLoop_entry_bounds (env : Env) (descriptions : StrMap) (key : Nat) (endp : Int)
    (hkey : key < 2 ^ env.ulongBits) :
    ∀ (n cur : Nat) (file : FStream), (endp - cur).toNat ≤ n →
      ∀ e ∈ (decodeLoop env descriptions key endp cur file).1,
        e.ver < 2 ^ env.ulongBits ∧ e.count < 2 ^ env.ulongBits := by
  intro n
  induction n with
  | zero =>
    intro cur file hn e he
    rw [decodeLoop_done _ _ _ _ _ _ (by omega)] at he
    simp at he
  | succ n ih =>
    intro cur file hn e he
    by_cases hc : (cur : Int) < endp
    · rw [decodeLoop_step _ _ _ _ _ _ hc] at he
      simp only [List.mem_cons] at he
      rcases he with he | he
      · subst he
        exact ⟨Nat.xor_lt_two_pow (readDword_lt _ _ _) hkey,
          Nat.xor_lt_two_pow (readDword_lt _ _ _) hkey⟩
      · exact ih (cur + 8) _ (by omega) e he
    · rw [decodeLoop_done _ _ _ _ _ _ hc] at he
      simp at he

/-- With a 32-bit `unsigned long` every printed row has `id < 2 ^ 16`,
`minver < 2 ^ 16`, a count below `2 ^ 32`, and `id * 2 ^ 16 + minver = ver`. -/
theorem decodeRichheader_entry_bounds_ulong32 (env : Env) (descriptions : StrMap)
    (file : FStream) (start endp key : Nat) (hw : env.ulongBits = 32) (hkey : key < 2 ^ 32)
    (e : RichEntry) (he : e ∈ (decodeRichheader env file start endp key descriptions).1) :
    e.id < 2 ^ 16 ∧ e.minver < 2 ^ 16 ∧ e.count < 2 ^ 32 ∧ e.id * 2 ^ 16 + e.minver = e.ver := by
  have h1 := decodeLoop_entry_shape env descriptions key _ _ _ file (Nat.le_refl _) e he
  have h2 := decodeLoop_entry_bounds env descriptions key _ (by rw [hw]; exact hkey) _ _ file
    (Nat.le_refl _) e he
  rw [hw] at h2
  refine ⟨?_, h1.2.2.2.1, h2.2, h1.2.2.1⟩
  have := h1.2.2.1
  omega

theorem scanRich_miss (env : Env) (pe_offset i : Nat) (file : FStream) (h : i < pe_offset)
    (hne : (readDword env file i).1 ≠ 0x68636952) :
    scanRich env pe_offset i file = scanRich env pe_offset (i + 4) (readDword env file i).2 := by
  rw [scanRich, if_pos h]
  simp only [hne, if_false]

theorem scanRich_hit (env : Env) (pe_offset i : Nat) (file : FStream) (h : i < pe_offset)
    (heq : (readDword env file i).1 = 0x68636952) :
    scanRich env pe_offset i file = (i + 4, (readDword env file i).2) := by
  rw [scanRich, if_pos h]
  simp only [heq, if_true]

theorem scanRich_done (env : Env) (pe_offset i : Nat) (file : FStream) (h : ¬ i < pe_offset) :
    scanRich env pe_offset i file = (0, file) := by
  rw [scanRich, if_neg h]

theorem scanDans_miss (env : Env) (key pe_offset i : Nat) (file : FStream) (h : i < pe_offset)
    (hne : (readDword env file i).1 ^^^ key ≠ 0x536E6144) :
    scanDans env key pe_offset i file =
      scanDans env key pe_offset (i + 4) (readDword env file i).2 := by
  rw [scanDans, if_pos h]
  simp only [hne, if_false]

theorem scanDans_hit (env : Env) (key pe_offset i : Nat) (file : FStream) (h : i < pe_offset)
    (heq : (readDword env file i).1 ^^^ key = 0x536E6144) :
    scanDans env key pe_offset i file = (i, (readDword env file i).2) := by
  rw [scanDans, if_pos h]
  simp only [heq, if_true]

theorem scanDans_done (env : Env) (key pe_offset i : Nat) (file : FStream)
    (h : ¬ i < pe_offset) :
    scanDans env key pe_offset i file = (0, file) := by
  rw [scanDans, if_neg h]


/-- C8 (code defect): with a 64-bit `unsigned long`, the pass over the
complete image `topBitPE` prints one row, decoded from the raw dwords
`02 00 01 80` and `03 00 00 80` under the key 0 that follows "Rich":
`ver = 0xFFFFFFFF80010002`, `id = 0xFFFFFFFF8001` and count
`0xFFFFFFFF80000003`.  The `id` is not below `2 ^ 16` and the count is not
below `2 ^ 32`. -/
theorem getRichheader_entry_exceeds_ulong64 :
    (getRichheader Env.ulong64 [] (FStream.opened topBitPE)).outcome =
      .decoded [⟨0xFFFFFFFF80010002, 0xFFFFFFFF8001, 2, 0xFFFFFFFF80000003, none⟩] ∧
    le32At topBitPE 0x50 = 0x80010002 ∧ le32At topBitPE 0x54 = 0x80000003 ∧
    ¬ (0xFFFFFFFF8001 < 2 ^ 16) ∧ ¬ (0xFFFFFFFF80000003 < 2 ^ 32) := by
  refine ⟨?_, by decide, by decide, by decide, by decide⟩
  have hl : locate Env.ulong64 (FStream.opened topBitPE) =
      (.ok ⟨"x64", 0x40, 0x60⟩, ⟨topBitPE, false,
        [(100, 2), (96, 4), (60, 2), (24, 2), (8, 2), (6, 2), (0, 2)]⟩) := by
    rfl
  unfold getRichheader
  rw [hl]
  simp only []
  rw [scanRich_miss _ _ _ _ (by decide) (by decide),
    scanRich_miss _ _ _ _ (by decide) (by decide),
    scanRich_miss _ _ _ _ (by decide) (by decide),
    scanRich_miss _ _ _ _ (by decide) (by decide),
    scanRich_miss _ _ _ _ (by decide) (by decide),
    scanRich_miss _ _ _ _ (by decide) (by decide),
    scanRich_hit _ _ _ _ (by decide) (by decide)]
  simp only []
  rw [scanDans_hit _ _ _ _ _ (by decide) (by decide)]
  rw [if_neg (by decide), if_neg (by decide), if_neg (by decide)]
  rw [decodeRichheader, decodeLoop_step _ _ _ _ _ _ (by decide),
    decodeLoop_done _ _ _ _ _ _ (by decide)]
  decide

/-- On a good stream that reaches past the decode window, with a 32-bit
`unsigned long`: the `k`-th row, XOR-ed again with the key, is the
little-endian value of the four file bytes at `cur + 8 * k`. -/
theorem decodeLoop_ver_xor_key_ulong32 (env : Env) (descriptions : StrMap) (key : Nat)
    (endp : Int) (hw : env.ulongBits = 32) :
    ∀ (n cur : Nat) (file : FStream), (endp - cur).toNat ≤ n → file.failed = false →
      endp + 7 ≤ file.size →
      (decodeLoop env descriptions key endp cur file).1.map (fun e => e.ver ^^^ key) =
        (List.range (decodeLoop env descriptions key endp cur file).1.length).map
          (fun k => le32At file.bytes (cur + 8 * k)) := by
  intro n
  induction n with
  | zero =>
    intro cur file hn hf hsz
    rw [decodeLoop_done _ _ _ _ _ _ (by omega)]
    rfl
  | succ n ih =>
    intro cur file hn hf hsz
    by_cases hc : (cur : Int) < endp
    · have hf1 : (readDword env file cur).2.failed = false := by
        rw [readDword_failed, hf]; simp; omega
      have hf2 : (readDword env (readDword env file cur).2 (cur + 4)).2.failed = false := by
        rw [readDword_failed, hf1, readDword_size]; simp; omega
      have hrec := ih (cur + 8) _ (by omega) hf2
        (by rw [readDword_size, readDword_size]; exact hsz)
      rw [decodeLoop_step _ _ _ _ _ _ hc]
      simp only [List.map_cons, List.length_cons, List.range_succ_eq_map, hrec, List.map_map,
        readDword_bytes, Nat.xor_cancel_right]
      rw [readDword_value_ulong32 env file cur hw hf (by omega)]
      congr 1
      apply List.map_congr_left
      intro k _
      simp only [Function.comp, Nat.succ_eq_add_one]
      congr 1
      omega
    · rw [decodeLoop_done _ _ _ _ _ _ hc]
      rfl

/-- C9 (code defect): with a 64-bit `unsigned long`, on the sample header of
the specification the key recovered after "Rich" is `0xFFFFFFFFDEADBEEF`; the
two rows decode to `ver = 0x00197809` and `ver = 0x010450E2`, and XOR-ing
them again with the recovered key gives `0xFFFFFFFFDEB4C6E6` and
`0xFFFFFFFFDFA9EE0D`, while the file bytes at offsets 16 and 24 hold the
32-bit little-endian values `0xDEB4C6E6` and `0xDFA9EE0D`. -/
theorem decodeRichheader_reencode_differs_ulong64 :
    (readDword Env.ulong64 (FStream.opened sampleHeader) 36).1 = 0xFFFFFFFFDEADBEEF ∧
    (decodeRichheader Env.ulong64 (FStream.opened sampleHeader) 0 40 0xFFFFFFFFDEADBEEF
        []).1.map (fun e => (e.ver, e.ver ^^^ 0xFFFFFFFFDEADBEEF)) =
      [(0x00197809, 0xFFFFFFFFDEB4C6E6), (0x010450E2, 0xFFFFFFFFDFA9EE0D)] ∧
    (List.range 2).map (fun k => le32At (FStream.opened sampleHeader).bytes (0 + 16 + 8 * k)) =
      [0xDEB4C6E6, 0xDFA9EE0D] := by
  refine ⟨by decide, ?_, by decide⟩
  rw [decodeRichheader, decodeLoop_step _ _ _ _ _ _ (by decide),
    decodeLoop_step _ _ _ _ _ _ (by decide), decodeLoop_done _ _ _ _ _ _ (by decide)]
  decide

/-- The pass after a successful location phase, in terms of the locals of
the source.  The machine name appears in the machine line only. -/
theorem getRichheader_of_locate (env : Env) (descriptions : StrMap) (file g : FStream)
    (loc : Located) (hloc : locate env file = (.ok loc, g)) :
    getRichheader env descriptions file =
      if richEnd env loc.dosexe_offset loc.pe_offset g = 0 then
        ⟨some loc.machine, .failure .RichSignatureNotFound,
          afterRich env loc.dosexe_offset loc.pe_offset g⟩
      else if dansOffset env loc.dosexe_offset loc.pe_offset g = 0 then
        ⟨some loc.machine, .failure .DansTokenNotFound,
          afterDans env loc.dosexe_offset loc.pe_offset g⟩
      else if richEnd env loc.dosexe_offset loc.pe_offset g + 4 > loc.pe_offset then
        ⟨some loc.machine, .failure .RichHeaderOverrunsPEHeader,
          afterDans env loc.dosexe_offset loc.pe_offset g⟩
      else
        ⟨some loc.machine,
          .decoded (decodeRichheader env (afterDans env loc.dosexe_offset loc.pe_offset g)
            (dansOffset env loc.dosexe_offset loc.pe_offset g)
            (richEnd env loc.dosexe_offset loc.pe_offset g + 4)
            (recoveredKey env loc.dosexe_offset loc.pe_offset g) descriptions).1,
          (decodeRichheader env (afterDans env loc.dosexe_offset loc.pe_offset g)
            (dansOffset env loc.dosexe_offset loc.pe_offset g)
            (richEnd env loc.dosexe_offset loc.pe_offset g + 4)
            (recoveredKey env loc.dosexe_offset loc.pe_offset g) descriptions).2⟩ := by
  unfold getRichheader
  rw [hloc]
  rfl

/-- The pass after a failed location phase. -/
theorem getRichheader_of_locate_error (env : Env) (descriptions : StrMap) (file g : FStream)
    (e : Error) (hloc : locate env file = (.error e, g)) :
    getRichheader env descriptions file = ⟨none, .failure e, g⟩ := by
  unfold getRichheader
  rw [hloc]

theorem dosStubStart_dvd (reloc_offset num_relocs : Nat) :
    16 ∣ dosStubStart reloc_offset num_relocs := by
  unfold dosStubStart
  simp only []
  split <;> split <;> omega

/-- What a successful location phase guarantees about the bounds, whatever
the state of the stream. -/
theorem locate_ok_bounds (env : Env) (file g : FStream) (loc : Located)
    (hloc : locate env file = (.ok loc, g)) :
    64 ≤ loc.pe_offset ∧ loc.pe_offset < 2 ^ 16 ∧ 16 ∣ loc.dosexe_offset := by
  unfold locate at hloc
  simp only [] at hloc
  split at hloc
  · simp at hloc
  · split at hloc
    · simp at hloc
    · split at hloc
      · simp at hloc
      · split at hloc
        · simp at hloc
        · rename_i a1 a2 a3 a4
          simp only [Prod.mk.injEq, Except.ok.injEq] at hloc
          obtain ⟨hl, _⟩ := hloc
          subst hl
          refine ⟨?_, readWord_lt _ _ _, dosStubStart_dvd _ _⟩
          simp only
          omega

theorem scanRich_empty (env : Env) (pe_offset i : Nat) (file : FStream) (h : pe_offset ≤ i) :
    scanRich env pe_offset i file = (0, file) := by
  rw [scanRich, if_neg (by omega)]

/-- C12 (counterexample): on `farRelocPE` the four location checks pass and
the computed bounds are `dos_stub_start = 0x80` and `pe_header_start = 0x40`. -/
theorem locate_bounds_not_ordered :
    (locate Env.ulong32 (FStream.opened farRelocPE)).1 = .ok ⟨"x32", 0x80, 0x40⟩ ∧
    ¬ ((0x80 : Nat) ≤ 0x40) :=
  ⟨rfl, by decide⟩

/-- C12 (amended): a successful location phase yields `pe_header_start` of
at least 64 and `dos_stub_start` a multiple of 16, and does not compare the
two; whenever `dos_stub_start >= pe_header_start` the pass ends with
`RichSignatureNotFound`, so that `dos_stub_start < pe_header_start` on every
file whose pass ends otherwise. -/
theorem locate_bounds_window (env : Env) (descriptions : StrMap) (file g : FStream)
    (loc : Located) (hloc : locate env file = (.ok loc, g)) :
    64 ≤ loc.pe_offset ∧ 16 ∣ loc.dosexe_offset ∧
    (loc.pe_offset ≤ loc.dosexe_offset →
      (getRichheader env descriptions file).outcome = .failure .RichSignatureNotFound) ∧
    ((getRichheader env descriptions file).outcome ≠ .failure .RichSignatureNotFound →
      loc.dosexe_offset < loc.pe_offset) := by
  have hb := locate_ok_bounds env file g loc hloc
  have hempty : loc.pe_offset ≤ loc.dosexe_offset →
      (getRichheader env descriptions file).outcome = .failure .RichSignatureNotFound := by
    intro h
    rw [getRichheader_of_locate env descriptions file g loc hloc]
    have : richEnd env loc.dosexe_offset loc.pe_offset g = 0 := by
      unfold richEnd
      rw [scanRich_empty _ _ _ _ h]
    rw [if_pos this]
  refine ⟨hb.1, hb.2.2, hempty, ?_⟩
  intro hne
  by_contra hlt
  exact hne (hempty (by omega))

/-- C12 (witness): on `farRelocPE` the window is empty and the pass ends with
`RichSignatureNotFound`. -/
theorem locate_bounds_window_witness :
    locate Env.ulong32 (FStream.opened farRelocPE) =
      (.ok ⟨"x32", 0x80, 0x40⟩,
        ⟨farRelocPE, false, [(68, 2), (64, 4), (60, 2), (24, 2), (8, 2), (6, 2), (0, 2)]⟩) ∧
    (getRichheader Env.ulong32 [] (FStream.opened farRelocPE)).outcome =
      .failure .RichSignatureNotFound :=
  ⟨rfl, (locate_bounds_window Env.ulong32 [] (FStream.opened farRelocPE) _ ⟨"x32", 0x80, 0x40⟩
    rfl).2.2.1 (by decide)⟩

theorem readBuf_reads (env : Env) (file : FStream) (pos n : Nat) :
    ∃ m, (readBuf env file pos n).2.reads = (pos, m) :: file.reads := by
  unfold readBuf
  split
  · exact ⟨0, rfl⟩
  · exact ⟨_, rfl⟩

theorem readDword_reads (env : Env) (file : FStream) (pos : Nat) :
    ∃ m, (readDword env file pos).2.reads = (pos, m) :: file.reads :=
  readBuf_reads env file pos 4

theorem readWord_reads (env : Env) (file : FStream) (pos : Nat) :
    ∃ m, (readWord env file pos).2.reads = (pos, m) :: file.reads :=
  readBuf_reads env file pos 2

/-- The number of rows of the decode loop: one for every pair that starts
below `endp`. -/
theorem decodeLoop_length (env : Env) (descriptions : StrMap) (key : Nat) (endp : Int) :
    ∀ (n cur : Nat) (file : FStream), (endp - cur).toNat ≤ n →
      (decodeLoop env descriptions key endp cur file).1.length =
        ((endp - cur + 7) / 8).toNat := by
  intro n
  induction n with
  | zero =>
    intro cur file hn
    rw [decodeLoop_done _ _ _ _ _ _ (by omega)]
    simp only [List.length_nil]
    omega
  | succ n ih =>
    intro cur file hn
    by_cases hc : (cur : Int) < endp
    · rw [decodeLoop_step _ _ _ _ _ _ hc]
      simp only [List.length_cons]
      rw [ih (cur + 8) _ (by omega)]
      push_cast
      omega
    · rw [decodeLoop_done _ _ _ _ _ _ hc]
      simp only [List.length_nil]
      omega

/-- The reads of the decode loop: each starts at or after `cur` and below
`endp + 4`; when the distance from `cur` to `endp` is a multiple of 8 each
ends at or before `endp`, and when it is positive and not a multiple of 8
some read ends beyond `endp`. -/
theorem decodeLoop_reads (env : Env) (descriptions : StrMap) (key : Nat) (endp : Int) :
    ∀ (n cur : Nat) (file : FStream), (endp - cur).toNat ≤ n →
      ∃ l, (decodeLoop env descriptions key endp cur file).2.reads = l ++ file.reads ∧
        (∀ pr ∈ l, cur ≤ pr.1 ∧ (pr.1 : Int) < endp + 4) ∧
        ((endp - cur) % 8 = 0 → ∀ pr ∈ l, (pr.1 : Int) + 4 ≤ endp) ∧
        ((cur : Int) < endp → (endp - cur) % 8 ≠ 0 → ∃ pr ∈ l, endp < (pr.1 : Int) + 4) := by
  intro n
  induction n with
  | zero =>
    intro cur file hn
    rw [decodeLoop_done _ _ _ _ _ _ (by omega)]
    exact ⟨[], rfl, by simp, by simp, by omega⟩
  | succ n ih =>
    intro cur file hn
    by_cases hc : (cur : Int) < endp
    · rw [decodeLoop_step _ _ _ _ _ _ hc]
      obtain ⟨m1, h1⟩ := readDword_reads env file cur
      obtain ⟨m2, h2⟩ := readDword_reads env (readDword env file cur).2 (cur + 4)
      obtain ⟨l, hl, hb, hal, hex⟩ := ih (cur + 8)
        (readDword env (readDword env file cur).2 (cur + 4)).2 (by omega)
      refine ⟨l ++ [(cur + 4, m2), (cur, m1)], ?_, ?_, ?_, ?_⟩
      · simp only [hl, h2, h1, List.append_assoc, List.cons_append, List.nil_append]
      · intro pr hpr
        simp only [List.mem_append, List.mem_cons, List.mem_singleton, List.not_mem_nil,
          or_false] at hpr
        rcases hpr with hpr | hpr | hpr
        · have := hb pr hpr
          omega
        · subst hpr
          simp only
          omega
        · subst hpr
          simp only
          omega
      · intro hmod pr hpr
        simp only [List.mem_append, List.mem_cons, List.mem_singleton, List.not_mem_nil,
          or_false] at hpr
        rcases hpr with hpr | hpr | hpr
        · exact hal (by push_cast; omega) pr hpr
        · subst hpr
          simp only
          push_cast
          omega
        · subst hpr
          simp only
          omega
      · intro _ hmod
        by_cases hnext : ((cur + 8 : Nat) : Int) < endp
        · obtain ⟨pr, hpr, hlt⟩ := hex hnext (by push_cast; omega)
          exact ⟨pr, by simp [hpr], hlt⟩
        · refine ⟨(cur + 4, m2), by simp, ?_⟩
          simp only
          push_cast at hnext ⊢
          omega
    · rw [decodeLoop_done _ _ _ _ _ _ hc]
      exact ⟨[], rfl, by simp, by simp, by omega⟩

/-- The first scan returns 0 or an offset `j + 4` with `i ≤ j < pe_offset`. -/
theorem scanRich_result (env : Env) (pe_offset : Nat) :
    ∀ (n i : Nat) (file : FStream), pe_offset - i ≤ n →
      (scanRich env pe_offset i file).1 = 0 ∨
        (i + 4 ≤ (scanRich env pe_offset i file).1 ∧
          (scanRich env pe_offset i file).1 < pe_offset + 4) := by
  intro n
  induction n with
  | zero =>
    intro i file hn
    rw [scanRich_done _ _ _ _ (by omega)]
    exact Or.inl rfl
  | succ n ih =>
    intro i file hn
    by_cases hi : i < pe_offset
    · by_cases ht : (readDword env file i).1 = 0x68636952
      · rw [scanRich_hit _ _ _ _ hi ht]
        exact Or.inr ⟨Nat.le_refl _, by simp only; omega⟩
      · rw [scanRich_miss _ _ _ _ hi ht]
        rcases ih (i + 4) (readDword env file i).2 (by omega) with h | h
        · exact Or.inl h
        · exact Or.inr ⟨by omega, h.2⟩
    · rw [scanRich_done _ _ _ _ hi]
      exact Or.inl rfl

/-- The second scan returns 0 or an offset `j` with `i ≤ j < pe_offset`. -/
theorem scanDans_result (env : Env) (key pe_offset : Nat) :
    ∀ (n i : Nat) (file : FStream), pe_offset - i ≤ n →
      (scanDans env key pe_offset i file).1 = 0 ∨
        (i ≤ (scanDans env key pe_offset i file).1 ∧
          (scanDans env key pe_offset i file).1 < pe_offset) := by
  intro n
  induction n with
  | zero =>
    intro i file hn
    rw [scanDans_done _ _ _ _ _ (by omega)]
    exact Or.inl rfl
  | succ n ih =>
    intro i file hn
    by_cases hi : i < pe_offset
    · by_cases ht : (readDword env file i).1 ^^^ key = 0x536E6144
      · rw [scanDans_hit _ _ _ _ _ hi ht]
        exact Or.inr ⟨Nat.le_refl _, hi⟩
      · rw [scanDans_miss _ _ _ _ _ hi ht]
        rcases ih (i + 4) (readDword env file i).2 (by omega) with h | h
        · exact Or.inl h
        · exact Or.inr ⟨by omega, h.2⟩
    · rw [scanDans_done _ _ _ _ _ hi]
      exact Or.inl rfl

theorem locate_dansAfterRichPE :
    locate Env.ulong32 (FStream.opened dansAfterRichPE) =
      (.ok ⟨"x64", 0x40, 0x60⟩, located dansAfterRichPE 0x60) := rfl

theorem locate_richAtEndPE :
    locate Env.ulong32 (FStream.opened richAtEndPE) =
      (.ok ⟨"x64", 0x40, 0x60⟩, located richAtEndPE 0x60) := rfl

theorem locate_oddPE :
    locate Env.ulong32 (FStream.opened oddPE) =
      (.ok ⟨"x64", 0x40, 0x64⟩, located oddPE 0x64) := rfl

/-- The locals of the pass over `dansAfterRichPE`. -/
theorem locals_dansAfterRichPE :
    richEnd Env.ulong32 0x40 0x60 (located dansAfterRichPE 0x60) = 0x44 ∧
    recoveredKey Env.ulong32 0x40 0x60 (located dansAfterRichPE 0x60) = 0 ∧
    dansOffset Env.ulong32 0x40 0x60 (located dansAfterRichPE 0x60) = 0x48 := by
  have h1 : scanRich Env.ulong32 0x60 0x40 (located dansAfterRichPE 0x60) =
      (0x44, (readDword Env.ulong32 (located dansAfterRichPE 0x60) 0x40).2) :=
    scanRich_hit _ _ _ _ (by decide) (by decide)
  have hk : recoveredKey Env.ulong32 0x40 0x60 (located dansAfterRichPE 0x60) = 0 := by
    unfold recoveredKey afterRich richEnd
    rw [h1]
    decide
  refine ⟨by unfold richEnd; rw [h1], hk, ?_⟩
  unfold dansOffset
  rw [hk]
  unfold afterKey afterRich richEnd
  rw [h1]
  rw [scanDans_miss _ _ _ _ _ (by decide) (by decide),
    scanDans_miss _ _ _ _ _ (by decide) (by decide),
    scanDans_hit _ _ _ _ _ (by decide) (by decide)]

/-- The locals of the pass over `richAtEndPE`. -/
theorem locals_richAtEndPE :
    richEnd Env.ulong32 0x40 0x60 (located richAtEndPE 0x60) = 0x60 ∧
    recoveredKey Env.ulong32 0x40 0x60 (located richAtEndPE 0x60) = 0x4550 ∧
    dansOffset Env.ulong32 0x40 0x60 (located richAtEndPE 0x60) = 0x40 := by
  have h1 : (scanRich Env.ulong32 0x60 0x40 (located richAtEndPE 0x60)).1 = 0x60 := by
    rw [scanRich_miss _ _ _ _ (by decide) (by decide),
      scanRich_miss _ _ _ _ (by decide) (by decide),
      scanRich_miss _ _ _ _ (by decide) (by decide),
      scanRich_miss _ _ _ _ (by decide) (by decide),
      scanRich_miss _ _ _ _ (by decide) (by decide),
      scanRich_miss _ _ _ _ (by decide) (by decide),
      scanRich_miss _ _ _ _ (by decide) (by decide),
      scanRich_hit _ _ _ _ (by decide) (by decide)]
  have hk : recoveredKey Env.ulong32 0x40 0x60 (located richAtEndPE 0x60) = 0x4550 := by
    unfold recoveredKey afterRich richEnd
    rw [scanRich_miss _ _ _ _ (by decide) (by decide),
      scanRich_miss _ _ _ _ (by decide) (by decide),
      scanRich_miss _ _ _ _ (by decide) (by decide),
      scanRich_miss _ _ _ _ (by decide) (by decide),
      scanRich_miss _ _ _ _ (by decide) (by decide),
      scanRich_miss _ _ _ _ (by decide) (by decide),
      scanRich_miss _ _ _ _ (by decide) (by decide),
      scanRich_hit _ _ _ _ (by decide) (by decide)]
    decide
  refine ⟨h1, hk, ?_⟩
  unfold dansOffset
  rw [hk, scanDans_hit _ _ _ _ _ (by decide) ?_]
  unfold afterKey afterRich richEnd
  rw [scanRich_miss _ _ _ _ (by decide) (by decide),
    scanRich_miss _ _ _ _ (by decide) (by decide),
    scanRich_miss _ _ _ _ (by decide) (by decide),
    scanRich_miss _ _ _ _ (by decide) (by decide),
    scanRich_miss _ _ _ _ (by decide) (by decide),
    scanRich_miss _ _ _ _ (by decide) (by decide),
    scanRich_miss _ _ _ _ (by decide) (by decide),
    scanRich_hit _ _ _ _ (by decide) (by decide)]
  decide

/-- The locals of the pass over `oddPE`. -/
theorem locals_oddPE :
    richEnd Env.ulong32 0x40 0x64 (located oddPE 0x64) = 0x60 ∧
    recoveredKey Env.ulong32 0x40 0x64 (located oddPE 0x64) = 0 ∧
    dansOffset Env.ulong32 0x40 0x64 (located oddPE 0x64) = 0x40 := by
  have h1 : (scanRich Env.ulong32 0x64 0x40 (located oddPE 0x64)).1 = 0x60 := by
    rw [scanRich_miss _ _ _ _ (by decide) (by decide),
      scanRich_miss _ _ _ _ (by decide) (by decide),
      scanRich_miss _ _ _ _ (by decide) (by decide),
      scanRich_miss _ _ _ _ (by decide) (by decide),
      scanRich_miss _ _ _ _ (by decide) (by decide),
      scanRich_miss _ _ _ _ (by decide) (by decide),
      scanRich_miss _ _ _ _ (by decide) (by decide),
      scanRich_hit _ _ _ _ (by decide) (by decide)]
  have hk : recoveredKey Env.ulong32 0x40 0x64 (located oddPE 0x64) = 0 := by
    unfold recoveredKey afterRich richEnd
    rw [scanRich_miss _ _ _ _ (by decide) (by decide),
      scanRich_miss _ _ _ _ (by decide) (by decide),
      scanRich_miss _ _ _ _ (by decide) (by decide),
      scanRich_miss _ _ _ _ (by decide) (by decide),
      scanRich_miss _ _ _ _ (by decide) (by decide),
      scanRich_miss _ _ _ _ (by decide) (by decide),
      scanRich_miss _ _ _ _ (by decide) (by decide),
      scanRich_hit _ _ _ _ (by decide) (by decide)]
    decide
  refine ⟨h1, hk, ?_⟩
  unfold dansOffset
  rw [hk, scanDans_hit _ _ _ _ _ (by decide) ?_]
  unfold afterKey afterRich richEnd
  rw [scanRich_miss _ _ _ _ (by decide) (by decide),
    scanRich_miss _ _ _ _ (by decide) (by decide),
    scanRich_miss _ _ _ _ (by decide) (by decide),
    scanRich_miss _ _ _ _ (by decide) (by decide),
    scanRich_miss _ _ _ _ (by decide) (by decide),
    scanRich_miss _ _ _ _ (by decide) (by decide),
    scanRich_miss _ _ _ _ (by decide) (by decide),
    scanRich_hit _ _ _ _ (by decide) (by decide)]
  decide

/-- When both scans succeed the first offset is at least 4 and `richEnd` is
`rich_sig_offset + 4`; the second offset lies in the window. -/
theorem scans_in_window (env : Env) (dos pe : Nat) (g : FStream)
    (h1 : richEnd env dos pe g ≠ 0) :
    dos + 4 ≤ richEnd env dos pe g ∧ richEnd env dos pe g < pe + 4 ∧
    richSigOffset env dos pe g + 4 = richEnd env dos pe g ∧
    (dansOffset env dos pe g ≠ 0 →
      dos ≤ dansOffset env dos pe g ∧ dansOffset env dos pe g < pe) := by
  have hr : richEnd env dos pe g = 0 ∨
      (dos + 4 ≤ richEnd env dos pe g ∧ richEnd env dos pe g < pe + 4) :=
    scanRich_result env pe (pe - dos) dos g (Nat.le_refl _)
  have hd : dansOffset env dos pe g = 0 ∨
      (dos ≤ dansOffset env dos pe g ∧ dansOffset env dos pe g < pe) :=
    scanDans_result env (recoveredKey env dos pe g) pe (pe - dos) dos
      (afterKey env dos pe g) (Nat.le_refl _)
  rcases hr with hr | hr
  · exact absurd hr h1
  · refine ⟨hr.1, hr.2, ?_, ?_⟩
    · unfold richSigOffset
      have := hr.1
      omega
    · intro h2
      rcases hd with hd | hd
      · exact absurd hd h2
      · exact hd

/-- The outcome of the pass when both scans succeed. -/
theorem getRichheader_scans_ok (env : Env) (descriptions : StrMap) (file g : FStream)
    (loc : Located) (hloc : locate env file = (.ok loc, g))
    (h1 : richEnd env loc.dosexe_offset loc.pe_offset g ≠ 0)
    (h2 : dansOffset env loc.dosexe_offset loc.pe_offset g ≠ 0) :
    (getRichheader env descriptions file).outcome =
      if richEnd env loc.dosexe_offset loc.pe_offset g + 4 > loc.pe_offset then
        .failure .RichHeaderOverrunsPEHeader
      else
        .decoded (decodeRichheader env (afterDans env loc.dosexe_offset loc.pe_offset g)
          (dansOffset env loc.dosexe_offset loc.pe_offset g)
          (richEnd env loc.dosexe_offset loc.pe_offset g + 4)
          (recoveredKey env loc.dosexe_offset loc.pe_offset g) descriptions).1 := by
  rw [getRichheader_of_locate env descriptions file g loc hloc, if_neg h1, if_neg h2]
  split <;> rfl

/-- The number of rows of `decodeRichheader`, in natural numbers. -/
theorem decodeRichheader_length (env : Env) (descriptions : StrMap) (file : FStream)
    (start endp key : Nat) :
    (decodeRichheader env file start endp key descriptions).1.length =
      if endp - 8 > start + 16 then (endp - 8 - (start + 16) + 7) / 8 else 0 := by
  unfold decodeRichheader
  rw [decodeLoop_length env descriptions key _ _ _ file (Nat.le_refl _)]
  split
  · push_cast
    omega
  · push_cast
    omega

/-- C13 (counterexample): on `dansAfterRichPE` both scans and the overrun
validation succeed and the decode pass is run (it prints no row), with
`rich_sig_offset = 0x40` and `dans_offset = 0x48`. -/
theorem dans_offset_after_rich_signature :
    (getRichheader Env.ulong32 [] (FStream.opened dansAfterRichPE)).outcome = .decoded [] ∧
    richSigOffset Env.ulong32 0x40 0x60 (located dansAfterRichPE 0x60) = 0x40 ∧
    dansOffset Env.ulong32 0x40 0x60 (located dansAfterRichPE 0x60) = 0x48 ∧
    ¬ ((0x48 : Nat) < 0x40) := by
  obtain ⟨h1, hk, h2⟩ := locals_dansAfterRichPE
  refine ⟨?_, by unfold richSigOffset; rw [h1], h2, by decide⟩
  rw [getRichheader_scans_ok Env.ulong32 [] _ _ _ locate_dansAfterRichPE
    (by rw [h1]; decide) (by rw [h2]; decide)]
  simp only [h1, h2, hk]
  rw [if_neg (by decide), decodeRichheader, decodeLoop_done _ _ _ _ _ _ (by decide)]

/-- C13 (amended): when both scans and the overrun validation succeed, the
decode pass is run whatever the order of the two offsets; it prints at least
one row exactly when `dans_offset + 16 < rich_sig_offset`, so that
`dans_offset < rich_sig_offset` on every file for which a row is printed. -/
theorem rows_imply_dans_before_rich (env : Env) (descriptions : StrMap) (file g : FStream)
    (loc : Located) (hloc : locate env file = (.ok loc, g))
    (h1 : richEnd env loc.dosexe_offset loc.pe_offset g ≠ 0)
    (h2 : dansOffset env loc.dosexe_offset loc.pe_offset g ≠ 0)
    (h3 : richEnd env loc.dosexe_offset loc.pe_offset g + 4 ≤ loc.pe_offset) :
    ∃ entries, (getRichheader env descriptions file).outcome = .decoded entries ∧
      (entries ≠ [] ↔ dansOffset env loc.dosexe_offset loc.pe_offset g + 16 <
        richSigOffset env loc.dosexe_offset loc.pe_offset g) ∧
      (entries ≠ [] → dansOffset env loc.dosexe_offset loc.pe_offset g <
        richSigOffset env loc.dosexe_offset loc.pe_offset g) := by
  have hw := scans_in_window env loc.dosexe_offset loc.pe_offset g h1
  have hout := getRichheader_scans_ok env descriptions file g loc hloc h1 h2
  rw [if_neg (by omega)] at hout
  have hlen := decodeRichheader_length env descriptions
    (afterDans env loc.dosexe_offset loc.pe_offset g)
    (dansOffset env loc.dosexe_offset loc.pe_offset g)
    (richEnd env loc.dosexe_offset loc.pe_offset g + 4)
    (recoveredKey env loc.dosexe_offset loc.pe_offset g)
  refine ⟨_, hout, ?_, ?_⟩
  · rw [← List.length_pos, hlen]
    split <;> omega
  · rw [← List.length_pos, hlen]
    split <;> omega

/-- C13 (witness): on `oddPE` the decode pass prints rows, and
`dans_offset = 0x40` lies before `rich_sig_offset = 0x5C`. -/
theorem rows_imply_dans_before_rich_witness :
    ∃ entries, (getRichheader Env.ulong32 [] (FStream.opened oddPE)).outcome = .decoded entries ∧
      (entries ≠ [] ↔ dansOffset Env.ulong32 0x40 0x64 (located oddPE 0x64) + 16 <
        richSigOffset Env.ulong32 0x40 0x64 (located oddPE 0x64)) ∧
      (entries ≠ [] → dansOffset Env.ulong32 0x40 0x64 (located oddPE 0x64) <
        richSigOffset Env.ulong32 0x40 0x64 (located oddPE 0x64)) :=
  rows_imply_dans_before_rich Env.ulong32 [] (FStream.opened oddPE) (located oddPE 0x64)
    ⟨"x64", 0x40, 0x64⟩ locate_oddPE (by rw [locals_oddPE.1]; decide)
    (by rw [locals_oddPE.2.2]; decide) (by rw [locals_oddPE.1])

/-- C14 (counterexample): on `richAtEndPE` both scans succeed with
`rich_sig_offset = 0x5C` and `pe_header_start = 0x60`, so that
`rich_sig_offset + 4 <= pe_header_start`, and the pass ends with
`RichHeaderOverrunsPEHeader`. -/
theorem overrun_with_signature_before_pe_header :
    (getRichheader Env.ulong32 [] (FStream.opened richAtEndPE)).outcome =
      .failure .RichHeaderOverrunsPEHeader ∧
    richSigOffset Env.ulong32 0x40 0x60 (located richAtEndPE 0x60) = 0x5C ∧
    dansOffset Env.ulong32 0x40 0x60 (located richAtEndPE 0x60) = 0x40 ∧
    (0x5C : Nat) + 4 ≤ 0x60 := by
  obtain ⟨h1, _, h2⟩ := locals_richAtEndPE
  refine ⟨?_, by unfold richSigOffset; rw [h1], h2, by decide⟩
  rw [getRichheader_scans_ok Env.ulong32 [] _ _ _ locate_richAtEndPE
    (by rw [h1]; decide) (by rw [h2]; decide)]
  simp only [h1]
  rw [if_pos (by decide)]

/-- C14 (amended): when both scans succeed, the pass ends with
`RichHeaderOverrunsPEHeader` exactly when
`rich_sig_offset + 8 > pe_header_start`, and runs the decode pass exactly
when `rich_sig_offset + 8 <= pe_header_start`. -/
theorem overrun_validation (env : Env) (descriptions : StrMap) (file g : FStream)
    (loc : Located) (hloc : locate env file = (.ok loc, g))
    (h1 : richEnd env loc.dosexe_offset loc.pe_offset g ≠ 0)
    (h2 : dansOffset env loc.dosexe_offset loc.pe_offset g ≠ 0) :
    ((getRichheader env descriptions file).outcome = .failure .RichHeaderOverrunsPEHeader ↔
      richSigOffset env loc.dosexe_offset loc.pe_offset g + 8 > loc.pe_offset) ∧
    ((∃ entries, (getRichheader env descriptions file).outcome = .decoded entries) ↔
      richSigOffset env loc.dosexe_offset loc.pe_offset g + 8 ≤ loc.pe_offset) := by
  have hw := scans_in_window env loc.dosexe_offset loc.pe_offset g h1
  have hout := getRichheader_scans_ok env descriptions file g loc hloc h1 h2
  by_cases hc : richEnd env loc.dosexe_offset loc.pe_offset g + 4 > loc.pe_offset
  · rw [if_pos hc] at hout
    rw [hout]
    refine ⟨⟨fun _ => by omega, fun _ => rfl⟩, ⟨?_, fun h => by omega⟩⟩
    rintro ⟨entries, he⟩
    simp at he
  · rw [if_neg hc] at hout
    rw [hout]
    refine ⟨⟨?_, fun h => by omega⟩, ⟨fun _ => by omega, fun _ => ⟨_, rfl⟩⟩⟩
    intro he
    simp at he

/-- C14 (witness): on `richAtEndPE`, `rich_sig_offset + 8 = 0x64` exceeds
`pe_header_start = 0x60` and the pass ends with `RichHeaderOverrunsPEHeader`. -/
theorem overrun_validation_witness :
    (getRichheader Env.ulong32 [] (FStream.opened richAtEndPE)).outcome =
        .failure .RichHeaderOverrunsPEHeader ↔
      richSigOffset Env.ulong32 0x40 0x60 (located richAtEndPE 0x60) + 8 > 0x60 :=
  (overrun_validation Env.ulong32 [] (FStream.opened richAtEndPE) (located richAtEndPE 0x60)
    ⟨"x64", 0x40, 0x60⟩ locate_richAtEndPE (by rw [locals_richAtEndPE.1]; decide)
    (by rw [locals_richAtEndPE.2.2]; decide)).1

/-- C16 (counterexample): on `oddHeader` the decode window `[16, 28)` has
length 12; the decode pass prints a second row for the final half pair, whose
count is the "Rich" dword at offset 28, and its last read is at offset 28,
the end of the window. -/
theorem decodeRichheader_emits_partial_pair :
    decodeRichheader Env.ulong32 (FStream.opened oddHeader) 0 (28 + 8) 0 [] =
      ([⟨0x00010002, 1, 2, 3, none⟩, ⟨0x00050004, 5, 4, 0x68636952, none⟩],
        ⟨oddHeader, false, [(28, 4), (24, 4), (20, 4), (16, 4)]⟩) ∧
    (28 - (0 + 16)) % 8 ≠ 0 := by
  refine ⟨?_, by decide⟩
  rw [decodeRichheader, decodeLoop_step _ _ _ _ _ _ (by decide),
    decodeLoop_step _ _ _ _ _ _ (by decide), decodeLoop_done _ _ _ _ _ _ (by decide)]
  decide

/-- C16 (amended): for every start, end and key the decode pass prints one
row for every pair that starts below the end of its window, so the final
partial pair is printed too; each of its reads starts at or after
`start + 16` and below `end + 4`, so no byte at or beyond `end + 7` is read;
when the window length is a multiple of 8 every read ends at or before `end`
(and when it is positive and not a multiple of 8 some read ends beyond
`end`).  Here `end` is `endp - 8`, the bound of the loop. -/
theorem decodeRichheader_pairs (env : Env) (descriptions : StrMap) (file : FStream)
    (start endp key : Nat) :
    (decodeRichheader env file start endp key descriptions).1.length =
      (((endp : Int) - 8 - (start + 16 : Nat) + 7) / 8).toNat ∧
    ∃ l, (decodeRichheader env file start endp key descriptions).2.reads = l ++ file.reads ∧
      (∀ pr ∈ l, start + 16 ≤ pr.1 ∧ (pr.1 : Int) < (endp : Int) - 8 + 4) ∧
      (((endp : Int) - 8 - (start + 16 : Nat)) % 8 = 0 →
        ∀ pr ∈ l, (pr.1 : Int) + 4 ≤ (endp : Int) - 8) ∧
      (((start + 16 : Nat) : Int) < (endp : Int) - 8 →
        ((endp : Int) - 8 - (start + 16 : Nat)) % 8 ≠ 0 →
        ∃ pr ∈ l, (endp : Int) - 8 < (pr.1 : Int) + 4) :=
  ⟨decodeLoop_length env descriptions key _ _ _ file (Nat.le_refl _),
    decodeLoop_reads env descriptions key _ _ _ file (Nat.le_refl _)⟩

/-- C19: when location, both scans and the overrun validation succeed, every
read of the decode pass starts at or after `dos_stub_start + 16` and its four
bytes end at or before `pe_header_start`; the reads of the decode pass are
those the stream logged after the second scan. -/
theorem decode_reads_inside_window (env : Env) (descriptions : StrMap) (file g : FStream)
    (loc : Located) (hloc : locate env file = (.ok loc, g))
    (h1 : richEnd env loc.dosexe_offset loc.pe_offset g ≠ 0)
    (h2 : dansOffset env loc.dosexe_offset loc.pe_offset g ≠ 0)
    (h3 : richEnd env loc.dosexe_offset loc.pe_offset g + 4 ≤ loc.pe_offset) :
    ∃ l, (getRichheader env descriptions file).file.reads =
        l ++ (afterDans env loc.dosexe_offset loc.pe_offset g).reads ∧
      ∀ pr ∈ l, loc.dosexe_offset + 16 ≤ pr.1 ∧ pr.1 + 4 ≤ loc.pe_offset := by
  have hw := scans_in_window env loc.dosexe_offset loc.pe_offset g h1
  have hd := hw.2.2.2 h2
  rw [getRichheader_of_locate env descriptions file g loc hloc, if_neg h1, if_neg h2,
    if_neg (by omega)]
  obtain ⟨l, hl, hb, _, _⟩ := decodeLoop_reads env descriptions
    (recoveredKey env loc.dosexe_offset loc.pe_offset g)
    (((richEnd env loc.dosexe_offset loc.pe_offset g + 4 : Nat) : Int) - 8) _
    (dansOffset env loc.dosexe_offset loc.pe_offset g + 16)
    (afterDans env loc.dosexe_offset loc.pe_offset g) (Nat.le_refl _)
  refine ⟨l, hl, ?_⟩
  intro pr hpr
  have := hb pr hpr
  push_cast at this
  omega

/-- C19 (witness): on `oddPE` the four reads of the decode pass lie in
`[0x50, 0x64)`. -/
theorem decode_reads_inside_window_witness :
    ∃ l, (getRichheader Env.ulong32 [] (FStream.opened oddPE)).file.reads =
        l ++ (afterDans Env.ulong32 0x40 0x64 (located oddPE 0x64)).reads ∧
      ∀ pr ∈ l, 0x40 + 16 ≤ pr.1 ∧ pr.1 + 4 ≤ 0x64 :=
  decode_reads_inside_window Env.ulong32 [] (FStream.opened oddPE) (located oddPE 0x64)
    ⟨"x64", 0x40, 0x64⟩ locate_oddPE (by rw [locals_oddPE.1]; decide)
    (by rw [locals_oddPE.2.2]; decide) (by rw [locals_oddPE.1])

/-- C20: the decode loop is total, and for every input `decodeRichheader`
prints `ceil((endp - 8 - (start + 16)) / 8)` rows when `endp - 8` exceeds
`start + 16` and none otherwise; when location, both scans and the overrun
validation succeed, the pass prints
`ceil((rich_sig_offset - (dans_offset + 16)) / 8)` rows when
`rich_sig_offset > dans_offset + 16` and none otherwise. -/
theorem decode_entry_count (env : Env) (descriptions : StrMap) (file g : FStream)
    (loc : Located) (hloc : locate env file = (.ok loc, g))
    (h1 : richEnd env loc.dosexe_offset loc.pe_offset g ≠ 0)
    (h2 : dansOffset env loc.dosexe_offset loc.pe_offset g ≠ 0)
    (h3 : richEnd env loc.dosexe_offset loc.pe_offset g + 4 ≤ loc.pe_offset) :
    (∃ entries, (getRichheader env descriptions file).outcome = .decoded entries ∧
      entries.length =
        if richSigOffset env loc.dosexe_offset loc.pe_offset g >
            dansOffset env loc.dosexe_offset loc.pe_offset g + 16 then
          (richSigOffset env loc.dosexe_offset loc.pe_offset g -
            (dansOffset env loc.dosexe_offset loc.pe_offset g + 16) + 7) / 8
        else 0) ∧
    ∀ (stream : FStream) (start endp key : Nat),
      (decodeRichheader env stream start endp key descriptions).1.length =
        if endp - 8 > start + 16 then (endp - 8 - (start + 16) + 7) / 8 else 0 := by
  have hw := scans_in_window env loc.dosexe_offset loc.pe_offset g h1
  have hout := getRichheader_scans_ok env descriptions file g loc hloc h1 h2
  rw [if_neg (by omega)] at hout
  refine ⟨⟨_, hout, ?_⟩, fun stream start endp key =>
    decodeRichheader_length env descriptions stream start endp key⟩
  rw [decodeRichheader_length]
  have : richEnd env loc.dosexe_offset loc.pe_offset g + 4 - 8 =
      richSigOffset env loc.dosexe_offset loc.pe_offset g := by omega
  rw [this]

/-- C20 (witness): on `oddPE`, with `dans_offset = 0x40` and
`rich_sig_offset = 0x5C`, the pass prints `ceil(12 / 8) = 2` rows. -/
theorem decode_entry_count_witness :
    (∃ entries, (getRichheader Env.ulong32 [] (FStream.opened oddPE)).outcome =
        .decoded entries ∧
      entries.length =
        if richSigOffset Env.ulong32 0x40 0x64 (located oddPE 0x64) >
            dansOffset Env.ulong32 0x40 0x64 (located oddPE 0x64) + 16 then
          (richSigOffset Env.ulong32 0x40 0x64 (located oddPE 0x64) -
            (dansOffset Env.ulong32 0x40 0x64 (located oddPE 0x64) + 16) + 7) / 8
        else 0) ∧
    (richSigOffset Env.ulong32 0x40 0x64 (located oddPE 0x64) -
      (dansOffset Env.ulong32 0x40 0x64 (located oddPE 0x64) + 16) + 7) / 8 = 2 :=
  ⟨(decode_entry_count Env.ulong32 [] (FStream.opened oddPE) (located oddPE 0x64)
      ⟨"x64", 0x40, 0x64⟩ locate_oddPE (by rw [locals_oddPE.1]; decide)
      (by rw [locals_oddPE.2.2]; decide) (by rw [locals_oddPE.1])).1,
    by unfold richSigOffset; rw [locals_oddPE.1, locals_oddPE.2.2]⟩

/-- The first scan on a good stream that reaches `pe_offset + 3`: the stream
stays good, the result is 0 when no dword of the window equals "Rich", and
otherwise 4 more than the least offset of the window that holds "Rich". -/
theorem scanRich_spec (env : Env) (pe_offset : Nat) (hw : 32 ≤ env.ulongBits) :
    ∀ (n i : Nat) (g : FStream), pe_offset - i ≤ n → g.failed = false →
      pe_offset + 3 ≤ g.size →
      (scanRich env pe_offset i g).2.failed = false ∧
      (scanRich env pe_offset i g).2.bytes = g.bytes ∧
      ((∀ k, i + 4 * k < pe_offset → le32At g.bytes (i + 4 * k) ≠ 0x68636952) →
        (scanRich env pe_offset i g).1 = 0) ∧
      (∀ k, i + 4 * k < pe_offset → le32At g.bytes (i + 4 * k) = 0x68636952 →
        (∀ m, m < k → le32At g.bytes (i + 4 * m) ≠ 0x68636952) →
        (scanRich env pe_offset i g).1 = i + 4 * k + 4) := by
  intro n
  induction n with
  | zero =>
    intro i g hn hf hsz
    rw [scanRich_done _ _ _ _ (by omega)]
    refine ⟨hf, rfl, fun _ => rfl, ?_⟩
    intro k hk
    omega
  | succ n ih =>
    intro i g hn hf hsz
    by_cases hi : i < pe_offset
    · have hf1 : (readDword env g i).2.failed = false := by
        rw [readDword_failed, hf]; simp; omega
      have hci := readDword_eq_const env g i 0x68636952 hw hf (by omega) (by decide)
      by_cases ht : (readDword env g i).1 = 0x68636952
      · rw [scanRich_hit _ _ _ _ hi ht]
        refine ⟨hf1, readDword_bytes _ _ _, ?_, ?_⟩
        · intro hno
          exact absurd (hci.mp ht) (by simpa using hno 0 (by omega))
        · intro k hk hm hleast
          cases k with
          | zero => rfl
          | succ k => exact absurd (hci.mp ht) (by simpa using hleast 0 (by omega))
      · rw [scanRich_miss _ _ _ _ hi ht]
        obtain ⟨a, b, c, d⟩ := ih (i + 4) (readDword env g i).2 (by omega) hf1
          (by rw [readDword_size]; exact hsz)
        rw [readDword_bytes] at b c d
        refine ⟨a, b, ?_, ?_⟩
        · intro hno
          apply c
          intro k hk
          have := hno (k + 1) (by omega)
          rwa [show i + 4 * (k + 1) = i + 4 + 4 * k by omega] at this
        · intro k hk hm hleast
          cases k with
          | zero => exact absurd (hci.mpr (by simpa using hm)) ht
          | succ k =>
            rw [d k (by omega) (by rwa [show i + 4 * (k + 1) = i + 4 + 4 * k by omega] at hm)]
            · omega
            · intro m hmk
              have := hleast (m + 1) (by omega)
              rwa [show i + 4 * (m + 1) = i + 4 + 4 * m by omega] at this
    · rw [scanRich_done _ _ _ _ hi]
      refine ⟨hf, rfl, fun _ => rfl, ?_⟩
      intro k hk
      omega

/-- The second scan on a good stream that reaches `pe_offset + 3`: the
result is 0 when no dword of the window, XOR-ed with the key, equals "DanS",
and otherwise the least offset of the window whose dword does. -/
theorem scanDans_spec (env : Env) (key pe_offset : Nat) :
    ∀ (n i : Nat) (g : FStream), pe_offset - i ≤ n → g.failed = false →
      pe_offset + 3 ≤ g.size →
      ((∀ k, i + 4 * k < pe_offset → dwordAt env g.bytes (i + 4 * k) ^^^ key ≠ 0x536E6144) →
        (scanDans env key pe_offset i g).1 = 0) ∧
      (∀ k, i + 4 * k < pe_offset → dwordAt env g.bytes (i + 4 * k) ^^^ key = 0x536E6144 →
        (∀ m, m < k → dwordAt env g.bytes (i + 4 * m) ^^^ key ≠ 0x536E6144) →
        (scanDans env key pe_offset i g).1 = i + 4 * k) := by
  intro n
  induction n with
  | zero =>
    intro i g hn hf hsz
    rw [scanDans_done _ _ _ _ _ (by omega)]
    refine ⟨fun _ => rfl, ?_⟩
    intro k hk
    omega
  | succ n ih =>
    intro i g hn hf hsz
    by_cases hi : i < pe_offset
    · have hf1 : (readDword env g i).2.failed = false := by
        rw [readDword_failed, hf]; simp; omega
      have hv : (readDword env g i).1 = dwordAt env g.bytes i := by
        rw [readDword_good env g i hf (by omega)]
        rfl
      by_cases ht : (readDword env g i).1 ^^^ key = 0x536E6144
      · rw [scanDans_hit _ _ _ _ _ hi ht]
        rw [hv] at ht
        refine ⟨?_, ?_⟩
        · intro hno
          exact absurd ht (by simpa using hno 0 (by omega))
        · intro k hk hm hleast
          cases k with
          | zero => rfl
          | succ k => exact absurd ht (by simpa using hleast 0 (by omega))
      · rw [scanDans_miss _ _ _ _ _ hi ht]
        rw [hv] at ht
        obtain ⟨c, d⟩ := ih (i + 4) (readDword env g i).2 (by omega) hf1
          (by rw [readDword_size]; exact hsz)
        rw [readDword_bytes] at c d
        refine ⟨?_, ?_⟩
        · intro hno
          apply c
          intro k hk
          have := hno (k + 1) (by omega)
          rwa [show i + 4 * (k + 1) = i + 4 + 4 * k by omega] at this
        · intro k hk hm hleast
          cases k with
          | zero => exact absurd (by simpa using hm) ht
          | succ k =>
            rw [d k (by omega) (by rwa [show i + 4 * (k + 1) = i + 4 + 4 * k by omega] at hm)]
            · omega
            · intro m hmk
              have := hleast (m + 1) (by omega)
              rwa [show i + 4 * (m + 1) = i + 4 + 4 * m by omega] at this
    · rw [scanDans_done _ _ _ _ _ hi]
      refine ⟨fun _ => rfl, ?_⟩
      intro k hk
      omega

/-- The stream a successful location phase leaves good holds the bytes of
the file and reaches past the machine word. -/
theorem located_stream (env : Env) (file g : FStream) (loc : Located)
    (hloc : locate env file = (.ok loc, g)) (hg : g.failed = false) :
    g.bytes = file.bytes ∧ loc.pe_offset + 6 ≤ g.size := by
  have hb := locate_bytes env file
  have hs := locate_ok_good env file loc (by rw [hloc]) (by rw [hloc]; exact hg)
  rw [hloc] at hb
  simp only at hb
  refine ⟨hb, ?_⟩
  simp only [FStream.size, hb]
  exact hs

/-- The pass ends with `RichSignatureNotFound` exactly when the first scan
returns 0. -/
theorem rich_not_found_iff (env : Env) (descriptions : StrMap) (file g : FStream)
    (loc : Located) (hloc : locate env file = (.ok loc, g)) :
    (getRichheader env descriptions file).outcome = .failure .RichSignatureNotFound ↔
      richEnd env loc.dosexe_offset loc.pe_offset g = 0 := by
  rw [getRichheader_of_locate env descriptions file g loc hloc]
  constructor
  · intro h
    by_contra hne
    rw [if_neg hne] at h
    split at h
    · simp at h
    · split at h <;> simp at h
  · intro h
    rw [if_pos h]

/-- The pass ends with `DansTokenNotFound` exactly when the first scan
succeeds and the second returns 0. -/
theorem dans_not_found_iff (env : Env) (descriptions : StrMap) (file g : FStream)
    (loc : Located) (hloc : locate env file = (.ok loc, g)) :
    (getRichheader env descriptions file).outcome = .failure .DansTokenNotFound ↔
      richEnd env loc.dosexe_offset loc.pe_offset g ≠ 0 ∧
        dansOffset env loc.dosexe_offset loc.pe_offset g = 0 := by
  rw [getRichheader_of_locate env descriptions file g loc hloc]
  constructor
  · intro h
    split at h
    · simp at h
    · rename_i h1
      refine ⟨h1, ?_⟩
      by_contra hne
      rw [if_neg hne] at h
      split at h <;> simp at h
  · rintro ⟨h1, h2⟩
    rw [if_neg h1, if_pos h2]

/-- C18 (amended): after a location phase that succeeds with every header
read complete (the file reaches the machine word at `pe_header_start + 4`),
the pass ends with `RichSignatureNotFound` exactly when no offset
`dos_stub_start + 4 * n` below `pe_header_start` holds the dword "Rich";
otherwise `rich_sig_offset` is the least such offset and the key is the dword
read at `rich_sig_offset + 4`, which is the dword of the file at that offset
when the file reaches `rich_sig_offset + 8`. -/
theorem first_rich_signature (env : Env) (descriptions : StrMap) (file g : FStream)
    (loc : Located) (hw : 32 ≤ env.ulongBits) (hloc : locate env file = (.ok loc, g))
    (hg : g.failed = false) :
    ((getRichheader env descriptions file).outcome = .failure .RichSignatureNotFound ↔
      ∀ n, loc.dosexe_offset + 4 * n < loc.pe_offset →
        le32At file.bytes (loc.dosexe_offset + 4 * n) ≠ 0x68636952) ∧
    (∀ n, loc.dosexe_offset + 4 * n < loc.pe_offset →
      le32At file.bytes (loc.dosexe_offset + 4 * n) = 0x68636952 →
      (∀ m, m < n → le32At file.bytes (loc.dosexe_offset + 4 * m) ≠ 0x68636952) →
      richSigOffset env loc.dosexe_offset loc.pe_offset g = loc.dosexe_offset + 4 * n ∧
      recoveredKey env loc.dosexe_offset loc.pe_offset g =
        (readDword env (afterRich env loc.dosexe_offset loc.pe_offset g)
          (loc.dosexe_offset + 4 * n + 4)).1 ∧
      (loc.dosexe_offset + 4 * n + 8 ≤ file.size →
        recoveredKey env loc.dosexe_offset loc.pe_offset g =
          dwordAt env file.bytes (loc.dosexe_offset + 4 * n + 4))) := by
  obtain ⟨hb, hsz⟩ := located_stream env file g loc hloc hg
  obtain ⟨sf, sb, snone, sfound⟩ := scanRich_spec env loc.pe_offset hw _ loc.dosexe_offset g
    (Nat.le_refl _) hg (by omega)
  rw [hb] at snone sfound
  have hfound : ∀ n, loc.dosexe_offset + 4 * n < loc.pe_offset →
      le32At file.bytes (loc.dosexe_offset + 4 * n) = 0x68636952 →
      (∀ m, m < n → le32At file.bytes (loc.dosexe_offset + 4 * m) ≠ 0x68636952) →
      richEnd env loc.dosexe_offset loc.pe_offset g = loc.dosexe_offset + 4 * n + 4 :=
    sfound
  constructor
  · rw [rich_not_found_iff env descriptions file g loc hloc]
    constructor
    · intro hzero
      by_contra hex
      push_neg at hex
      have hex2 : ∃ n, loc.dosexe_offset + 4 * n < loc.pe_offset ∧
          le32At file.bytes (loc.dosexe_offset + 4 * n) = 0x68636952 := hex
      have hmin := Nat.find_spec hex2
      have hlt : ∀ m, m < Nat.find hex2 →
          le32At file.bytes (loc.dosexe_offset + 4 * m) ≠ 0x68636952 := by
        intro m hm heq
        have := Nat.find_min hex2 hm
        have hmlt : loc.dosexe_offset + 4 * m < loc.pe_offset := by omega
        exact this ⟨hmlt, heq⟩
      have := hfound _ hmin.1 hmin.2 hlt
      omega
    · intro hno
      exact snone hno
  · intro n hn hrich hleast
    have hend := hfound n hn hrich hleast
    have hkey : recoveredKey env loc.dosexe_offset loc.pe_offset g =
        (readDword env (afterRich env loc.dosexe_offset loc.pe_offset g)
          (loc.dosexe_offset + 4 * n + 4)).1 := by
      unfold recoveredKey
      rw [hend]
    refine ⟨by unfold richSigOffset; omega, hkey, ?_⟩
    intro hfile
    rw [hkey]
    have hsf : (afterRich env loc.dosexe_offset loc.pe_offset g).failed = false := sf
    have hsb : (afterRich env loc.dosexe_offset loc.pe_offset g).bytes = g.bytes := sb
    rw [readDword_good env _ _ hsf (by simp only [FStream.size, hsb, hb]; exact hfile)]
    simp only [hsb, hb]
    rfl

/-- C18 (witness): on `oddPE` the least offset `0x40 + 4 * n` holding "Rich"
is `0x5C` (`n = 7`), and the key is the dword after it. -/
theorem first_rich_signature_witness :
    richSigOffset Env.ulong32 0x40 0x64 (located oddPE 0x64) = 0x40 + 4 * 7 ∧
    recoveredKey Env.ulong32 0x40 0x64 (located oddPE 0x64) =
      (readDword Env.ulong32 (afterRich Env.ulong32 0x40 0x64 (located oddPE 0x64))
        (0x40 + 4 * 7 + 4)).1 ∧
    (0x40 + 4 * 7 + 8 ≤ (FStream.opened oddPE).size →
      recoveredKey Env.ulong32 0x40 0x64 (located oddPE 0x64) =
        dwordAt Env.ulong32 (FStream.opened oddPE).bytes (0x40 + 4 * 7 + 4)) :=
  (first_rich_signature Env.ulong32 [] (FStream.opened oddPE) (located oddPE 0x64)
    ⟨"x64", 0x40, 0x64⟩ (by decide) locate_oddPE rfl).2 7 (by decide) (by decide) (by decide)

theorem locate_zeroStubPE :
    locate Env.ulong32 (FStream.opened zeroStubPE) =
      (.ok ⟨"x64", 0, 0x50⟩, located zeroStubPE 0x50) := rfl

/-- The second scan inside the pass, when every read up to it was complete:
`doffset` is 0 when no dword of the window decodes to "DanS", and otherwise
the least offset of the window whose dword does. -/
theorem dansOffset_least (env : Env) (file g : FStream) (loc : Located)
    (hw : 32 ≤ env.ulongBits) (hloc : locate env file = (.ok loc, g))
    (hg : (afterKey env loc.dosexe_offset loc.pe_offset g).failed = false) :
    ((∀ n, loc.dosexe_offset + 4 * n < loc.pe_offset →
        dwordAt env file.bytes (loc.dosexe_offset + 4 * n) ^^^
          recoveredKey env loc.dosexe_offset loc.pe_offset g ≠ 0x536E6144) →
      dansOffset env loc.dosexe_offset loc.pe_offset g = 0) ∧
    (∀ n, loc.dosexe_offset + 4 * n < loc.pe_offset →
      dwordAt env file.bytes (loc.dosexe_offset + 4 * n) ^^^
        recoveredKey env loc.dosexe_offset loc.pe_offset g = 0x536E6144 →
      (∀ m, m < n → dwordAt env file.bytes (loc.dosexe_offset + 4 * m) ^^^
        recoveredKey env loc.dosexe_offset loc.pe_offset g ≠ 0x536E6144) →
      dansOffset env loc.dosexe_offset loc.pe_offset g = loc.dosexe_offset + 4 * n) := by
  have hk : (afterKey env loc.dosexe_offset loc.pe_offset g).failed =
      ((afterRich env loc.dosexe_offset loc.pe_offset g).failed ||
        decide ((afterRich env loc.dosexe_offset loc.pe_offset g).size <
          richEnd env loc.dosexe_offset loc.pe_offset g + 4)) := readDword_failed _ _ _
  rw [hg] at hk
  have hr : (afterRich env loc.dosexe_offset loc.pe_offset g).failed = false := by
    cases h : (afterRich env loc.dosexe_offset loc.pe_offset g).failed
    · rfl
    · rw [h] at hk; simp at hk
  have hgf : g.failed = false := by
    cases h : g.failed
    · rfl
    · have := scanRich_failed env loc.pe_offset _ loc.dosexe_offset g (Nat.le_refl _) h
      rw [show (scanRich env loc.pe_offset loc.dosexe_offset g).2 =
        afterRich env loc.dosexe_offset loc.pe_offset g from rfl, hr] at this
      simp at this
  obtain ⟨hb, hsz⟩ := located_stream env file g loc hloc hgf
  obtain ⟨_, sb, _, _⟩ := scanRich_spec env loc.pe_offset hw _ loc.dosexe_offset g
    (Nat.le_refl _) hgf (by omega)
  have hkb : (afterKey env loc.dosexe_offset loc.pe_offset g).bytes = file.bytes := by
    unfold afterKey
    rw [readDword_bytes]
    exact sb.trans hb
  have hspec := scanDans_spec env (recoveredKey env loc.dosexe_offset loc.pe_offset g)
    loc.pe_offset _ loc.dosexe_offset (afterKey env loc.dosexe_offset loc.pe_offset g)
    (Nat.le_refl _) hg (by simp only [FStream.size, hkb]; simp only [FStream.size, hb] at hsz; omega)
  rw [hkb] at hspec
  exact hspec

/-- C17 (code defect): on `zeroStubPE` the DOS stub starts at offset 0, the
key recovered after "Rich" is `0x536E3B09`, and the dword at offset 0 XOR the
key is "DanS", so offset 0 is the least matching offset of the window
`[0, 0x50)`; the second scan stores it in `doffset`, whose value 0 is taken as
"not found", and the pass ends with `DansTokenNotFound`. -/
theorem dans_token_at_offset_zero_not_found :
    (getRichheader Env.ulong32 [] (FStream.opened zeroStubPE)).outcome =
      .failure .DansTokenNotFound ∧
    (locate Env.ulong32 (FStream.opened zeroStubPE)).1 = .ok ⟨"x64", 0, 0x50⟩ ∧
    recoveredKey Env.ulong32 0 0x50 (located zeroStubPE 0x50) = 0x536E3B09 ∧
    dwordAt Env.ulong32 zeroStubPE 0 ^^^ 0x536E3B09 = 0x536E6144 ∧
    dansOffset Env.ulong32 0 0x50 (located zeroStubPE 0x50) = 0 := by
  have h1 : scanRich Env.ulong32 0x50 0 (located zeroStubPE 0x50) =
      scanRich Env.ulong32 0x50 0x40 (readDword Env.ulong32 (readDword Env.ulong32
        (readDword Env.ulong32 (readDword Env.ulong32 (readDword Env.ulong32
        (readDword Env.ulong32 (readDword Env.ulong32 (readDword Env.ulong32
        (readDword Env.ulong32 (readDword Env.ulong32 (readDword Env.ulong32
        (readDword Env.ulong32 (readDword Env.ulong32 (readDword Env.ulong32
        (readDword Env.ulong32 (readDword Env.ulong32 (located zeroStubPE 0x50) 0).2 4).2 8).2
        12).2 16).2 20).2 24).2 28).2 32).2 36).2 40).2 44).2 48).2 52).2 56).2 60).2 := by
    rw [scanRich_miss _ _ _ _ (by decide) (by decide),
      scanRich_miss _ _ _ _ (by decide) (by decide),
      scanRich_miss _ _ _ _ (by decide) (by decide),
      scanRich_miss _ _ _ _ (by decide) (by decide),
      scanRich_miss _ _ _ _ (by decide) (by decide),
      scanRich_miss _ _ _ _ (by decide) (by decide),
      scanRich_miss _ _ _ _ (by decide) (by decide),
      scanRich_miss _ _ _ _ (by decide) (by decide),
      scanRich_miss _ _ _ _ (by decide) (by decide),
      scanRich_miss _ _ _ _ (by decide) (by decide),
      scanRich_miss _ _ _ _ (by decide) (by decide),
      scanRich_miss _ _ _ _ (by decide) (by decide),
      scanRich_miss _ _ _ _ (by decide) (by decide),
      scanRich_miss _ _ _ _ (by decide) (by decide),
      scanRich_miss _ _ _ _ (by decide) (by decide),
      scanRich_miss _ _ _ _ (by decide) (by decide)]
  have hend : richEnd Env.ulong32 0 0x50 (located zeroStubPE 0x50) = 0x44 := by
    unfold richEnd
    rw [h1, scanRich_hit _ _ _ _ (by decide) (by decide)]
  have hk : recoveredKey Env.ulong32 0 0x50 (located zeroStubPE 0x50) = 0x536E3B09 := by
    unfold recoveredKey afterRich
    rw [hend, h1, scanRich_hit _ _ _ _ (by decide) (by decide)]
    decide
  have hd : dansOffset Env.ulong32 0 0x50 (located zeroStubPE 0x50) = 0 := by
    unfold dansOffset
    rw [hk, scanDans_hit _ _ _ _ _ (by decide) ?_]
    unfold afterKey afterRich
    rw [hend, h1, scanRich_hit _ _ _ _ (by decide) (by decide)]
    decide
  refine ⟨?_, rfl, hk, by decide, hd⟩
  rw [dans_not_found_iff Env.ulong32 [] _ _ _ locate_zeroStubPE]
  exact ⟨by rw [hend]; decide, hd⟩

theorem locate_eq_locateWith (env : Env) (file : FStream) :
    locate env file = locateWith getMachineType env file := rfl

theorem getRichheader_eq_getRichheaderWith (env : Env) (descriptions : StrMap)
    (file : FStream) :
    getRichheader env descriptions file =
      getRichheaderWith getMachineType env descriptions file := rfl

/-- Two lookups give location results that differ in the machine name only. -/
theorem locateWith_cases (f h : Nat → String) (env : Env) (file : FStream) :
    (∃ e g, locateWith f env file = (.error e, g) ∧ locateWith h env file = (.error e, g)) ∨
    (∃ a b dos pe g, locateWith f env file = (.ok ⟨a, dos, pe⟩, g) ∧
      locateWith h env file = (.ok ⟨b, dos, pe⟩, g)) := by
  unfold locateWith
  simp only []
  split_ifs
  · exact Or.inl ⟨_, _, rfl, rfl⟩
  · exact Or.inl ⟨_, _, rfl, rfl⟩
  · exact Or.inl ⟨_, _, rfl, rfl⟩
  · exact Or.inl ⟨_, _, rfl, rfl⟩
  · exact Or.inr ⟨_, _, _, _, _, rfl, rfl⟩

theorem getRichheaderWith_ok (f : Nat → String) (env : Env) (descriptions : StrMap)
    (file g : FStream) (loc : Located) (hloc : locateWith f env file = (.ok loc, g)) :
    getRichheaderWith f env descriptions file =
      if richEnd env loc.dosexe_offset loc.pe_offset g = 0 then
        ⟨some loc.machine, .failure .RichSignatureNotFound,
          afterRich env loc.dosexe_offset loc.pe_offset g⟩
      else if dansOffset env loc.dosexe_offset loc.pe_offset g = 0 then
        ⟨some loc.machine, .failure .DansTokenNotFound,
          afterDans env loc.dosexe_offset loc.pe_offset g⟩
      else if richEnd env loc.dosexe_offset loc.pe_offset g + 4 > loc.pe_offset then
        ⟨some loc.machine, .failure .RichHeaderOverrunsPEHeader,
          afterDans env loc.dosexe_offset loc.pe_offset g⟩
      else
        ⟨some loc.machine,
          .decoded (decodeRichheader env (afterDans env loc.dosexe_offset loc.pe_offset g)
            (dansOffset env loc.dosexe_offset loc.pe_offset g)
            (richEnd env loc.dosexe_offset loc.pe_offset g + 4)
            (recoveredKey env loc.dosexe_offset loc.pe_offset g) descriptions).1,
          (decodeRichheader env (afterDans env loc.dosexe_offset loc.pe_offset g)
            (dansOffset env loc.dosexe_offset loc.pe_offset g)
            (richEnd env loc.dosexe_offset loc.pe_offset g + 4)
            (recoveredKey env loc.dosexe_offset loc.pe_offset g) descriptions).2⟩ := by
  unfold getRichheaderWith
  rw [hloc]
  rfl

/-- Whatever the lookup returns, the bounds, the outcome of the pass and the
stream at its end are the same. -/
theorem lookup_irrelevant (f h : Nat → String) (env : Env) (descriptions : StrMap)
    (file : FStream) :
    bounds (locateWith f env file).1 = bounds (locateWith h env file).1 ∧
    (locateWith f env file).2 = (locateWith h env file).2 ∧
    (getRichheaderWith f env descriptions file).outcome =
      (getRichheaderWith h env descriptions file).outcome ∧
    (getRichheaderWith f env descriptions file).file =
      (getRichheaderWith h env descriptions file).file := by
  rcases locateWith_cases f h env file with ⟨e, g, h1, h2⟩ | ⟨a, b, dos, pe, g, h1, h2⟩
  · refine ⟨by rw [h1, h2], by rw [h1, h2], ?_, ?_⟩
    · unfold getRichheaderWith
      rw [h1, h2]
    · unfold getRichheaderWith
      rw [h1, h2]
  · have o1 := getRichheaderWith_ok f env descriptions file g _ h1
    have o2 := getRichheaderWith_ok h env descriptions file g _ h2
    simp only at o1 o2
    refine ⟨by rw [h1, h2]; rfl, by rw [h1, h2], ?_, ?_⟩
    · rw [o1, o2]
      split_ifs <;> rfl
    · rw [o1, o2]
      split_ifs <;> rfl

/-- A code that is none of the constants of the table is "Unknown". -/
theorem getMachineType_unknown (machineId : Nat)
    (h : ∀ p ∈ machineTable, p.1 ≠ machineId) : getMachineType machineId = "Unknown" := by
  have hc : ∀ c s, (c, s) ∈ machineTable → ¬ machineId = c :=
    fun c s hm e => h (c, s) hm e.symm
  unfold getMachineType
  rw [if_neg (hc 0x8664 "x64" (by decide)),
      if_neg (hc 0x14c "x32" (by decide)),
      if_neg (hc 0x1d3 "Matsushita AM33" (by decide)),
      if_neg (hc 0x1c0 "ARM LE" (by decide)),
      if_neg (hc 0x1c4 "ARMv7+ Thumb" (by decide)),
      if_neg (hc 0xaa64 "ARMv8 64bit" (by decide)),
      if_neg (hc 0xebc "EFI bytecode" (by decide)),
      if_neg (hc 0x200 "Intel Itanium" (by decide)),
      if_neg (hc 0x9041 "Mitsubishi M32R LE" (by decide)),
      if_neg (hc 0x266 "MIPS16" (by decide)),
      if_neg (hc 0x366 "MIPS w/FPU" (by decide)),
      if_neg (hc 0x466 "MIPS16 w/FPU" (by decide)),
      if_neg (hc 0x1f0 "PowerPC LE" (by decide)),
      if_neg (hc 0x1f1 "PowerPC w/FPU" (by decide)),
      if_neg (hc 0x166 "MIPS LE" (by decide)),
      if_neg (hc 0x1a2 "Hitachi SH3" (by decide)),
      if_neg (hc 0x1a3 "Hitachi SH3 DSP" (by decide)),
      if_neg (hc 0x1a6 "Hitachi SH4" (by decide)),
      if_neg (hc 0x1a8 "Hitachi SH5" (by decide)),
      if_neg (hc 0x1c2 "ARM or Thumb" (by decide)),
      if_neg (hc 0x169 "MIPS LE WCE v2" (by decide))]

/-- Each constant of the table has the name the table gives it, which is not
"Unknown". -/
theorem getMachineType_table :
    ∀ p ∈ machineTable, getMachineType p.1 = p.2 ∧ p.2 ≠ "Unknown" := by
  decide

/-- C15: `getMachineType` returns "Unknown" exactly for the codes that are
none of the 21 constants of its table, and for each constant the name the
table gives it; and the name it returns has no effect on the located bounds,
on the outcome of the pass (the decoded rows included) or on the stream:
with any other lookup in its place they are the same. -/
theorem machine_type_lookup :
    (∀ machineId, getMachineType machineId = "Unknown" ↔
      ∀ p ∈ machineTable, p.1 ≠ machineId) ∧
    (∀ p ∈ machineTable, getMachineType p.1 = p.2) ∧
    machineTable.map Prod.fst =
      [0x8664, 0x14c, 0x1d3, 0x1c0, 0x1c4, 0xaa64, 0xebc, 0x200, 0x9041, 0x266, 0x366, 0x466,
        0x1f0, 0x1f1, 0x166, 0x1a2, 0x1a3, 0x1a6, 0x1a8, 0x1c2, 0x169] ∧
    getMachineType 0x8664 = "x64" ∧
    ∀ (lookup : Nat → String) (env : Env) (descriptions : StrMap) (file : FStream),
      bounds (locateWith lookup env file).1 = bounds (locate env file).1 ∧
      (getRichheaderWith lookup env descriptions file).outcome =
        (getRichheader env descriptions file).outcome ∧
      (getRichheaderWith lookup env descriptions file).file =
        (getRichheader env descriptions file).file := by
  refine ⟨?_, fun p hp => (getMachineType_table p hp).1, by decide, by decide, ?_⟩
  · intro m
    constructor
    · intro hu p hp he
      have := getMachineType_table p hp
      rw [he, hu] at this
      exact this.2 this.1.symm
    · exact getMachineType_unknown m
  · intro lookup env d file
    have := lookup_irrelevant lookup getMachineType env d file
    exact ⟨this.1, this.2.2.1, this.2.2.2⟩

theorem hexDigit_lt (c d : Nat) (h : hexDigit c = some d) : d < 16 := by
  unfold hexDigit at h
  split at h
  · simp only [Option.some.injEq] at h; omega
  · split at h
    · simp only [Option.some.injEq] at h; omega
    · split at h
      · simp only [Option.some.injEq] at h; omega
      · simp at h

theorem hexDigits_append (rest : ByteString)
    (hrest : ∀ c, rest.head? = some c → hexDigit c = none) :
    ∀ (digits : ByteString) (acc taken : Nat), (∀ c ∈ digits, hexDigit c ≠ none) →
      hexDigits acc taken (digits ++ rest) =
        (digits.foldl (fun a c => a * 16 + (hexDigit c).getD 0) acc, taken + digits.length,
          rest) := by
  intro digits
  induction digits with
  | nil =>
    intro acc taken _
    cases rest with
    | nil => rfl
    | cons c cs =>
      have := hrest c rfl
      simp [hexDigits, this]
  | cons d ds ih =>
    intro acc taken h
    have hd := h d (List.mem_cons_self _ _)
    cases hv : hexDigit d with
    | none => exact absurd hv hd
    | some v =>
      simp only [List.cons_append, hexDigits, hv, List.foldl_cons, Option.getD_some,
        List.length_cons]
      change hexDigits (acc * 16 + v) (taken + 1) (ds ++ rest) = _
      rw [ih _ _ (fun c hc => h c (List.mem_cons_of_mem _ hc))]
      congr 2
      omega

theorem foldl_hex_lt : ∀ (digits : ByteString) (acc : Nat),
    digits.foldl (fun a c => a * 16 + (hexDigit c).getD 0) acc <
      (acc + 1) * 16 ^ digits.length := by
  intro digits
  induction digits with
  | nil => intro acc; simp
  | cons d ds ih =>
    intro acc
    have hd : (hexDigit d).getD 0 < 16 := by
      cases hv : hexDigit d with
      | none => simp
      | some v => simpa using hexDigit_lt d v hv
    have := ih (acc * 16 + (hexDigit d).getD 0)
    simp only [List.foldl_cons, List.length_cons]
    calc _ < (acc * 16 + (hexDigit d).getD 0 + 1) * 16 ^ ds.length := this
      _ ≤ ((acc + 1) * 16) * 16 ^ ds.length := Nat.mul_le_mul_right _ (by omega)
      _ = (acc + 1) * 16 ^ (ds.length + 1) := by rw [Nat.pow_succ]; ring

theorem hexValue_lt (digits : ByteString) : hexValue digits < 16 ^ digits.length := by
  have := foldl_hex_lt digits 0
  simpa [hexValue] using this

theorem hexDigit_space : hexDigit 0x20 = none := by decide

theorem not_space_of_hex (c : Nat) (h : hexDigit c ≠ none) : isSpace c = false := by
  cases hs : isSpace c with
  | false => rfl
  | true =>
    exfalso
    simp only [isSpace, Bool.or_eq_true, decide_eq_true_eq] at hs
    rcases hs with ((((hs | hs) | hs) | hs) | hs) | hs <;> subst hs <;> exact h (by decide)

theorem skipHexMarker_of_hex (c d : Nat) (cs : ByteString) (hd : hexDigit d ≠ none) :
    skipHexMarker (c :: d :: cs) = c :: d :: cs := by
  unfold skipHexMarker
  split
  · rename_i h
    simp only [List.cons.injEq] at h
    exact absurd (by rw [h.2.1]; decide) hd
  · rename_i h
    simp only [List.cons.injEq] at h
    exact absurd (by rw [h.2.1]; decide) hd
  · rfl

/-- A line made of eight hexadecimal digits, one space and a text is parsed
into the number the digits denote and the text. -/
theorem parseLine_well_formed (env : Env) (digits : ByteString) (text : ByteString)
    (hw : 32 ≤ env.ulongBits) (hlen : digits.length = 8)
    (hhex : ∀ c ∈ digits, hexDigit c ≠ none) :
    parseLine env (digits ++ 0x20 :: text) = (some (hexValue digits), text) := by
  obtain ⟨c, d, cs, rfl⟩ : ∃ c d cs, digits = c :: d :: cs := by
    match digits, hlen with
    | c :: d :: cs, _ => exact ⟨c, d, cs, rfl⟩
  have hc := hhex c (by simp)
  have hd := hhex d (by simp)
  have hsp := not_space_of_hex c hc
  have hminus : c ≠ 0x2D := by rintro rfl; exact hc (by decide)
  have hplus : c ≠ 0x2B := by rintro rfl; exact hc (by decide)
  have hval := hexValue_lt (c :: d :: cs)
  rw [hlen] at hval
  have hpow : (2 : Nat) ^ 32 ≤ 2 ^ env.ulongBits := Nat.pow_le_pow_right (by decide) hw
  have hdig := hexDigits_append (0x20 :: text) (by intro x hx; simp at hx; subst hx; decide)
    (c :: d :: cs) 0 0 hhex
  unfold parseLine
  simp only [List.cons_append, List.dropWhile_cons, hsp, Bool.false_eq_true, if_false,
    List.head?_cons, Option.some.injEq, hminus, hplus, or_self, reduceCtorEq,
    skipHexMarker_of_hex c d _ hd, decide_False]
  simp only [List.cons_append] at hdig
  rw [hdig]
  simp only [hlen, Nat.zero_add]
  rw [if_neg (by decide), if_neg (by change ¬ (hexValue (c :: d :: cs) ≥ _); omega)]
  simp [hexValue]

theorem StrMap.find_cons_ne (descriptions : StrMap) (k id : Nat) (v : ByteString) (h : k ≠ id) :
    StrMap.find ((k, v) :: descriptions) id = descriptions.find id := by
  simp [StrMap.find, h]

theorem StrMap.find_cons_self (descriptions : StrMap) (id : Nat) (v : ByteString) :
    StrMap.find ((id, v) :: descriptions) id = some v := by
  simp [StrMap.find]

theorem loadLines_cons (env : Env) (k : Nat) (str : ByteString) (more : List ByteString)
    (descriptions : StrMap) :
    loadLines env k (str :: more) descriptions =
      if str.length > 8 ∧ str.head? ≠ some 0x23 then
        if descriptions.find
            ((parseLine env str).1.getD (env.staleId k) % 2 ^ env.ulongBits) ≠ none then
          loadLines env (k + 1) more descriptions
        else
          loadLines env (k + 1) more
            (((parseLine env str).1.getD (env.staleId k) % 2 ^ env.ulongBits,
              (parseLine env str).2) :: descriptions)
      else loadLines env k more descriptions := by
  rw [loadLines]

/-- Loading never changes what the table already holds for an id. -/
theorem loadLines_preserves (env : Env) (id : Nat) (v : ByteString) :
    ∀ (lines : List ByteString) (k : Nat) (descriptions : StrMap),
      descriptions.find id = some v → (loadLines env k lines descriptions).find id = some v := by
  intro lines
  induction lines with
  | nil => intro k d h; exact h
  | cons str more ih =>
    intro k d h
    rw [loadLines_cons]
    split
    · split
      · exact ih _ _ h
      · rename_i hnone
        apply ih
        by_cases hk : ((parseLine env str).1.getD (env.staleId k)) % 2 ^ env.ulongBits = id
        · rw [hk, h] at hnone
          simp at hnone
        · rw [StrMap.find_cons_ne _ _ _ _ hk]
          exact h
    · exact ih _ _ h

/-- Loading a list of lines in two parts. -/
theorem loadLines_append (env : Env) :
    ∀ (l1 l2 : List ByteString) (k : Nat) (descriptions : StrMap),
      ∃ k2, loadLines env k (l1 ++ l2) descriptions =
        loadLines env k2 l2 (loadLines env k l1 descriptions) := by
  intro l1
  induction l1 with
  | nil => intro l2 k d; exact ⟨k, rfl⟩
  | cons str more ih =>
    intro l2 k d
    simp only [List.cons_append, loadLines_cons]
    by_cases hc : str.length > 8 ∧ str.head? ≠ some 0x23
    · by_cases hd : d.find
          ((parseLine env str).1.getD (env.staleId k) % 2 ^ env.ulongBits) ≠ none
      · simp only [if_pos hc, if_pos hd]
        exact ih _ _ _
      · simp only [if_pos hc, if_neg hd]
        exact ih _ _ _
    · simp only [if_neg hc]
      exact ih _ _ _

/-- Every printed row carries the description that the table holds for its
undecomposed `ver`, the value the code computed, and none when the table
holds none. -/
theorem row_description_is_table_value (env : Env) (file : FStream) (start endp key : Nat)
    (descriptions : StrMap) :
    ∀ e ∈ (decodeRichheader env file start endp key descriptions).1,
      e.description = descriptions.find e.ver := by
  intro e he
  exact (decodeLoop_entry_shape env _ key _ _ _ file (Nat.le_refl _) e he).2.2.2.2

/-- A resource line made of eight hexadecimal digits, one space and a text,
whose id is not in the table built from the lines before it, makes the table
map that id to exactly the text. -/
theorem loadDescriptions_line (env : Env) (before after : List ByteString)
    (digits text : ByteString) (hw : 32 ≤ env.ulongBits) (hlen : digits.length = 8)
    (hhex : ∀ c ∈ digits, hexDigit c ≠ none)
    (hnew : (loadDescriptions env (some before) []).find (hexValue digits) = none) :
    (loadDescriptions env (some (before ++ [digits ++ 0x20 :: text] ++ after)) []).find
      (hexValue digits) = some text := by
  simp only [loadDescriptions, List.append_assoc] at hnew ⊢
  obtain ⟨k2, hk2⟩ := loadLines_append env before ([digits ++ 0x20 :: text] ++ after) 0 []
  rw [hk2]
  have hval := hexValue_lt digits
  rw [hlen] at hval
  have hpow : (2 : Nat) ^ 32 ≤ 2 ^ env.ulongBits := Nat.pow_le_pow_right (by decide) hw
  have hparse := parseLine_well_formed env digits text hw hlen hhex
  obtain ⟨c, cs, rfl⟩ : ∃ c cs, digits = c :: cs := by
    match digits, hlen with
    | c :: cs, _ => exact ⟨c, cs, rfl⟩
  have hc : c ≠ 0x23 := by
    rintro rfl
    exact hhex 0x23 (by simp) (by decide)
  have hl : 8 < (c :: cs ++ 0x20 :: text).length := by
    simp only [List.length_append, List.length_cons] at hlen ⊢
    omega
  simp only [List.singleton_append]
  rw [loadLines_cons]
  have hacc : (c :: cs ++ 0x20 :: text).length > 8 ∧
      (c :: cs ++ 0x20 :: text).head? ≠ some 0x23 := by
    refine ⟨hl, ?_⟩
    simp [hc]
  rw [if_pos hacc]
  simp only [hparse, Option.getD_some]
  rw [Nat.mod_eq_of_lt (by omega), hnew]
  simp only [ne_eq, not_true_eq_false, if_false]
  exact loadLines_preserves env _ _ _ _ _ (StrMap.find_cons_self _ _ _)

/-- The line `00190B09 Imported Function` makes the table map `0x00190B09` to
`Imported Function` and nothing else to anything. -/
theorem loadDescriptions_line_sample :
    loadDescriptions Env.ulong32 (some [utf8 "00190B09 Imported Function"]) [] =
      [(0x00190B09, utf8 "Imported Function")] ∧
    (loadDescriptions Env.ulong32
      (some ([] ++ [utf8 "00190B09" ++ 0x20 :: utf8 "Imported Function"] ++ [])) []).find
      (hexValue (utf8 "00190B09")) = some (utf8 "Imported Function") ∧
    ∀ ver, ver ≠ 0x00190B09 →
      StrMap.find [(0x00190B09, utf8 "Imported Function")] ver = none :=
  ⟨by decide,
    loadDescriptions_line Env.ulong32 [] [] (utf8 "00190B09") (utf8 "Imported Function")
      (by decide) (by decide) (by decide) (by decide),
    fun ver h => by simp [StrMap.find, Ne.symm h]⟩

/-- With a 32-bit `unsigned long`, the row of `topBitPE` (`ver = 0x80010002`)
carries the description that the line `80010002 Top tool` gives that
`ver`. -/
theorem description_found_on_ulong32 :
    (getRichheader Env.ulong32
      (loadDescriptions Env.ulong32 (some [utf8 "80010002 Top tool"]) [])
      (FStream.opened topBitPE)).outcome =
      .decoded [⟨0x80010002, 0x8001, 2, 0x80000003, some (utf8 "Top tool")⟩] := by
  have ht : loadDescriptions Env.ulong32 (some [utf8 "80010002 Top tool"]) [] =
      [(0x80010002, utf8 "Top tool")] := by decide
  have hl : locate Env.ulong32 (FStream.opened topBitPE) =
      (.ok ⟨"x64", 0x40, 0x60⟩, ⟨topBitPE, false,
        [(100, 2), (96, 4), (60, 2), (24, 2), (8, 2), (6, 2), (0, 2)]⟩) := by
    rfl
  rw [ht]
  unfold getRichheader
  rw [hl]
  simp only []
  rw [scanRich_miss _ _ _ _ (by decide) (by decide),
    scanRich_miss _ _ _ _ (by decide) (by decide),
    scanRich_miss _ _ _ _ (by decide) (by decide),
    scanRich_miss _ _ _ _ (by decide) (by decide),
    scanRich_miss _ _ _ _ (by decide) (by decide),
    scanRich_miss _ _ _ _ (by decide) (by decide),
    scanRich_hit _ _ _ _ (by decide) (by decide)]
  simp only []
  rw [scanDans_hit _ _ _ _ _ (by decide) (by decide)]
  rw [if_neg (by decide), if_neg (by decide), if_neg (by decide)]
  rw [decodeRichheader, decodeLoop_step _ _ _ _ _ _ (by decide),
    decodeLoop_done _ _ _ _ _ _ (by decide)]
  decide

/-- C10 (code defect): with a 64-bit `unsigned long`, the table loaded from
the line `80010002 Top tool` holds the key `0x80010002`, and the row of
`topBitPE` is decoded from the raw dword `0x80010002` under the key 0, so
that its 32-bit `ver_dword` is `0x80010002`; the code looks up the
sign-extended `ver = 0xFFFFFFFF80010002` and the row carries no
description. -/
theorem description_missed_on_ulong64 :
    loadDescriptions Env.ulong64 (some [utf8 "80010002 Top tool"]) [] =
      [(0x80010002, utf8 "Top tool")] ∧
    (getRichheader Env.ulong64
      (loadDescriptions Env.ulong64 (some [utf8 "80010002 Top tool"]) [])
      (FStream.opened topBitPE)).outcome =
      .decoded [⟨0xFFFFFFFF80010002, 0xFFFFFFFF8001, 2, 0xFFFFFFFF80000003, none⟩] ∧
    le32At topBitPE 0x50 ^^^ le32At topBitPE 0x5C = 0x80010002 ∧
    StrMap.find (loadDescriptions Env.ulong64 (some [utf8 "80010002 Top tool"]) [])
      0x80010002 = some (utf8 "Top tool") := by
  have ht : loadDescriptions Env.ulong64 (some [utf8 "80010002 Top tool"]) [] =
      [(0x80010002, utf8 "Top tool")] := by decide
  have hl : locate Env.ulong64 (FStream.opened topBitPE) =
      (.ok ⟨"x64", 0x40, 0x60⟩, ⟨topBitPE, false,
        [(100, 2), (96, 4), (60, 2), (24, 2), (8, 2), (6, 2), (0, 2)]⟩) := by
    rfl
  refine ⟨ht, ?_, by decide, by rw [ht]; decide⟩
  rw [ht]
  unfold getRichheader
  rw [hl]
  simp only []
  rw [scanRich_miss _ _ _ _ (by decide) (by decide),
    scanRich_miss _ _ _ _ (by decide) (by decide),
    scanRich_miss _ _ _ _ (by decide) (by decide),
    scanRich_miss _ _ _ _ (by decide) (by decide),
    scanRich_miss _ _ _ _ (by decide) (by decide),
    scanRich_miss _ _ _ _ (by decide) (by decide),
    scanRich_hit _ _ _ _ (by decide) (by decide)]
  simp only []
  rw [scanDans_hit _ _ _ _ _ (by decide) (by decide)]
  rw [if_neg (by decide), if_neg (by decide), if_neg (by decide)]
  rw [decodeRichheader, decodeLoop_step _ _ _ _ _ _ (by decide),
    decodeLoop_done _ _ _ _ _ _ (by decide)]
  decide

theorem StrMap.find_eq_firstBearing (descriptions : StrMap) (id : Nat) :
    descriptions.find id = firstBearing id descriptions := by
  induction descriptions with
  | nil => rfl
  | cons p rest ih =>
    obtain ⟨k, v⟩ := p
    simp only [StrMap.find, firstBearing, ih]

theorem loadLines_cons_accepted (env : Env) (k : Nat) (str : ByteString) (more : List ByteString)
    (descriptions : StrMap) :
    loadLines env k (str :: more) descriptions =
      if accepted str then
        if descriptions.find (lineId env k str) ≠ none then
          loadLines env (k + 1) more descriptions
        else
          loadLines env (k + 1) more
            ((lineId env k str, (parseLine env str).2) :: descriptions)
      else loadLines env k more descriptions :=
  loadLines_cons env k str more descriptions

/-- What the table holds for an id after loading: what it held before, or
else the description of the first accepted line bearing the id. -/
theorem loadLines_find (env : Env) (id : Nat) :
    ∀ (lines : List ByteString) (k : Nat) (descriptions : StrMap),
      (loadLines env k lines descriptions).find id =
        match descriptions.find id with
        | some v => some v
        | none => firstBearing id (acceptedPairs env k lines) := by
  intro lines
  induction lines with
  | nil =>
    intro k d
    simp only [loadLines, acceptedPairs, firstBearing]
    cases d.find id <;> rfl
  | cons str more ih =>
    intro k d
    rw [loadLines_cons_accepted]
    by_cases hacc : accepted str
    · rw [if_pos hacc]
      simp only [acceptedPairs, if_pos hacc, firstBearing]
      by_cases hd : d.find (lineId env k str) ≠ none
      · rw [if_pos hd, ih]
        cases hf : d.find id with
        | some v => rfl
        | none =>
          simp only
          have hne : lineId env k str ≠ id := by
            intro h
            rw [h] at hd
            exact hd hf
          rw [if_neg hne]
      · rw [if_neg hd]
        have hnone : d.find (lineId env k str) = none := by
          simpa using hd
        rw [ih]
        by_cases hid : lineId env k str = id
        · rw [← hid, StrMap.find_cons_self, hnone]
          simp
        · rw [StrMap.find_cons_ne _ _ _ _ hid, if_neg hid]
    · rw [if_neg hacc]
      simp only [acceptedPairs, if_neg hacc]
      exact ih k d

/-- A line whose id the table already holds, and a line that is not accepted,
leave the table as it is. -/
theorem loadLines_single_unchanged (env : Env) (k : Nat) (str : ByteString) (descriptions : StrMap)
    (h : ¬ accepted str ∨ descriptions.find (lineId env k str) ≠ none) :
    loadLines env k [str] descriptions = descriptions := by
  rw [loadLines_cons_accepted]
  by_cases hacc : accepted str
  · rw [if_pos hacc]
    rcases h with h | h
    · exact absurd hacc h
    · rw [if_pos h]
      rfl
  · rw [if_neg hacc]
    rfl

/-- C11: `loadDescriptions` is a total function of its resource, whose lines
are byte strings; after loading a resource into the empty table every id maps
to the description of the first accepted line (more than 8 bytes, the first
of them not `#`) bearing it, and to nothing when no accepted line bears it; a
resource that cannot be opened leaves the table as it is; and a line that
bears an id the table already holds leaves the whole table unchanged. -/
theorem loadDescriptions_first_write_wins (env : Env) (lines : List ByteString) :
    (∀ id, (loadDescriptions env (some lines) []).find id =
      firstBearing id (acceptedPairs env 0 lines)) ∧
    (∀ descriptions, loadDescriptions env none descriptions = descriptions) ∧
    (∀ (k : Nat) (str : ByteString) (descriptions : StrMap), accepted str →
      descriptions.find (lineId env k str) ≠ none →
      loadLines env k [str] descriptions = descriptions) := by
  refine ⟨?_, fun _ => rfl, ?_⟩
  · intro id
    have := loadLines_find env id lines 0 []
    simpa [loadDescriptions, StrMap.find] using this
  · intro k str d _ h
    exact loadLines_single_unchanged env k str d (Or.inr h)

/-- Two lines with the same id: the table keeps the description of the first. -/
theorem loadDescriptions_duplicate_sample :
    loadDescriptions Env.ulong32
      (some [utf8 "00190B09 Imported Function", utf8 "# note", utf8 "00190B09 Second",
        utf8 "0104764B Linker"]) [] =
      [(0x0104764B, utf8 "Linker"), (0x00190B09, utf8 "Imported Function")] := by
  decide

/-- Lines are measured and consumed in bytes: the line `ABCDEF é` has 8
characters and 9 bytes; it is accepted, its id is `0xABCDEF`, and its
description is the two bytes of `é`. After the digits of `00190B09éX` one
byte is dropped, the first of the two bytes of `é`. -/
theorem loadDescriptions_counts_bytes :
    (utf8 "ABCDEF é").length = 9 ∧ accepted (utf8 "ABCDEF é") ∧
    loadDescriptions Env.ulong32 (some [utf8 "ABCDEF é"]) [] = [(0xABCDEF, [0xC3, 0xA9])] ∧
    loadDescriptions Env.ulong32 (some [utf8 "00190B09éX"]) [] =
      [(0x00190B09, [0xA9, 0x58])] := by
  decide

/-- C11 (witness): of the two lines bearing `0x00190B09`, the table keeps the
description of the first. -/
theorem loadDescriptions_first_write_wins_witness :
    (loadDescriptions Env.ulong32
      (some [utf8 "00190B09 Imported Function", utf8 "# note", utf8 "00190B09 Second",
        utf8 "0104764B Linker"])
      []).find 0x00190B09 =
      firstBearing 0x00190B09 (acceptedPairs Env.ulong32 0
        [utf8 "00190B09 Imported Function", utf8 "# note", utf8 "00190B09 Second",
        utf8 "0104764B Linker"]) ∧
    firstBearing 0x00190B09 (acceptedPairs Env.ulong32 0
        [utf8 "00190B09 Imported Function", utf8 "# note", utf8 "00190B09 Second",
        utf8 "0104764B Linker"]) =
      some (utf8 "Imported Function") :=
  ⟨(loadDescriptions_first_write_wins Env.ulong32
      [utf8 "00190B09 Imported Function", utf8 "# note", utf8 "00190B09 Second",
        utf8 "0104764B Linker"]).1
      0x00190B09, by decide⟩

/-- A read that starts at or after the end of the file delivers no byte:
`readDword` returns the dword its buffer held before the call. -/
theorem readDword_stale (env : Env) (file : FStream) (pos : Nat) (h : file.size ≤ pos) :
    (readDword env file pos).1 = staleDword env file.reads.length := by
  unfold readDword readBuf staleDword
  have hd : List.drop pos file.bytes = [] := List.drop_eq_nil_of_le h
  by_cases hf : file.failed = true
  · simp [hf, List.range_succ]
  · simp [hf, hd, List.range_succ]

theorem readWord_reads_length (env : Env) (file : FStream) (pos : Nat) :
    (readWord env file pos).2.reads.length = file.reads.length + 1 := by
  obtain ⟨m, hm⟩ := readWord_reads env file pos
  rw [hm, List.length_cons]

theorem readDword_reads_length (env : Env) (file : FStream) (pos : Nat) :
    (readDword env file pos).2.reads.length = file.reads.length + 1 := by
  obtain ⟨m, hm⟩ := readDword_reads env file pos
  rw [hm, List.length_cons]

/-- On a file shorter than 64 bytes the read of the PE signature starts past
the end of the file, so that the location phase ends with one of its three
diagnostics unless the buffer of that read, the sixth of the pass, already
holds `0x4550`. -/
theorem locate_short_error (env : Env) (file : FStream) (hsz : file.size < 64)
    (hsig : staleDword env (file.reads.length + 5) ≠ 0x4550) :
    (locate env file).1 = .error .NotAnExecutable ∨
    (locate env file).1 = .error .MalformedDosHeader ∨
    (locate env file).1 = .error .NotAPEImage := by
  unfold locate
  simp only []
  split
  · exact Or.inl rfl
  · split
    · exact Or.inr (Or.inl rfl)
    · split
      · exact Or.inr (Or.inl rfl)
      · rename_i a1 a2 a3
        have h5 : (readDword env (readWord env (readWord env (readWord env (readWord env
            (readWord env file 0).2 6).2 8).2 0x18).2 0x3c).2
            (readWord env (readWord env (readWord env (readWord env
            (readWord env file 0).2 6).2 8).2 0x18).2 0x3c).1).1 =
            staleDword env (file.reads.length + 5) := by
          rw [readDword_stale _ _ _ (by simp only [readWord_size]; omega)]
          simp only [readWord_reads_length]
        split
        · exact Or.inr (Or.inr rfl)
        · rename_i a4
          rw [h5] at a4
          exact absurd hsig a4

/-- C4 (counterexample): three files shorter than 64 bytes.  The ten-byte
file `4D 5A 00 .. 00` ends with `MalformedDosHeader`.  The 62-byte file
`cutHeader` ends with `NotAPEImage` when the uninitialised buffers hold
zeros.  Neither diagnostic is `TruncatedRead` or `NotAnExecutable`.  And when
the uninitialised buffers hold the dwords `cutHeaderBuffers`, every read of
the pass over `cutHeader` past its end returns what its buffer held: the
location phase succeeds, both scans succeed, the decode pass is run and one
row is printed. -/
theorem short_file_outcomes :
    (FStream.opened shortMZ).size < 64 ∧
    (getRichheader Env.ulong32 [] (FStream.opened shortMZ)).outcome =
      .failure .MalformedDosHeader ∧
    (FStream.opened cutHeader).size < 64 ∧
    (getRichheader Env.ulong32 [] (FStream.opened cutHeader)).outcome =
      .failure .NotAPEImage ∧
    staleDword (Env.staleDwords cutHeaderBuffers) 5 = 0x4550 ∧
    (getRichheader (Env.staleDwords cutHeaderBuffers) [] (FStream.opened cutHeader)).machine =
      some "x64" ∧
    (getRichheader (Env.staleDwords cutHeaderBuffers) [] (FStream.opened cutHeader)).outcome =
      .decoded [⟨0x00010002, 1, 2, 3, none⟩] := by
  have hl : locate (Env.staleDwords cutHeaderBuffers) (FStream.opened cutHeader) =
      (.ok ⟨"x64", 0x40, 0x60⟩, ⟨cutHeader, true,
        [(100, 0), (96, 0), (60, 2), (24, 2), (8, 2), (6, 2), (0, 2)]⟩) := by
    rfl
  have hr : getRichheader (Env.staleDwords cutHeaderBuffers) [] (FStream.opened cutHeader) =
      ⟨some "x64", .decoded [⟨0x00010002, 1, 2, 3, none⟩], ⟨cutHeader, true,
        [(84, 0), (80, 0), (64, 0), (92, 0), (88, 0), (84, 0), (80, 0), (76, 0), (72, 0),
          (68, 0), (64, 0), (100, 0), (96, 0), (60, 2), (24, 2), (8, 2), (6, 2), (0, 2)]⟩⟩ := by
    unfold getRichheader
    rw [hl]
    simp only []
    rw [scanRich_miss _ _ _ _ (by decide) (by decide),
      scanRich_miss _ _ _ _ (by decide) (by decide),
      scanRich_miss _ _ _ _ (by decide) (by decide),
      scanRich_miss _ _ _ _ (by decide) (by decide),
      scanRich_miss _ _ _ _ (by decide) (by decide),
      scanRich_miss _ _ _ _ (by decide) (by decide),
      scanRich_hit _ _ _ _ (by decide) (by decide)]
    simp only []
    rw [scanDans_hit _ _ _ _ _ (by decide) (by decide)]
    rw [if_neg (by decide), if_neg (by decide), if_neg (by decide)]
    rw [decodeRichheader, decodeLoop_step _ _ _ _ _ _ (by decide),
      decodeLoop_done _ _ _ _ _ _ (by decide)]
    decide
  refine ⟨by decide, by decide, by decide, by decide, by decide, ?_, ?_⟩
  · rw [hr]
  · rw [hr]

/-- C4 (amended): on a file shorter than 64 bytes, unless the uninitialised
buffer of the read of the PE signature (the sixth read call of the pass)
already holds `0x4550`, the pass ends in the location phase with
`NotAnExecutable`, `MalformedDosHeader` or `NotAPEImage`; the machine line is
not printed and no decode pass is run, so that no entry is printed. -/
theorem short_file_no_decode (env : Env) (descriptions : StrMap) (file : FStream)
    (hsz : file.size < 64) (hsig : staleDword env (file.reads.length + 5) ≠ 0x4550) :
    ((getRichheader env descriptions file).outcome = .failure .NotAnExecutable ∨
      (getRichheader env descriptions file).outcome = .failure .MalformedDosHeader ∨
      (getRichheader env descriptions file).outcome = .failure .NotAPEImage) ∧
    (getRichheader env descriptions file).machine = none ∧
    ∀ entries, (getRichheader env descriptions file).outcome ≠ .decoded entries := by
  have hs := locate_short_error env file hsz hsig
  cases hl : locate env file with
  | mk r g =>
    rw [hl] at hs
    simp only at hs
    cases r with
    | ok loc =>
      rcases hs with h | h | h <;> simp at h
    | error e =>
      rw [getRichheader_of_locate_error env descriptions file g e hl]
      simp only [Except.error.injEq] at hs
      refine ⟨?_, rfl, ?_⟩
      · rcases hs with h | h | h
        · exact Or.inl (by rw [h])
        · exact Or.inr (Or.inl (by rw [h]))
        · exact Or.inr (Or.inr (by rw [h]))
      · intro entries h
        simp at h

/-- C4 (witness): the 62-byte file `cutHeader` with zeros in the
uninitialised buffers ends with `NotAPEImage`, and the ten-byte file
`shortMZ` in the location phase too. -/
theorem short_file_no_decode_witness :
    (FStream.opened cutHeader).size < 64 ∧
    staleDword Env.ulong32 ((FStream.opened cutHeader).reads.length + 5) ≠ 0x4550 ∧
    (((getRichheader Env.ulong32 [] (FStream.opened cutHeader)).outcome =
        .failure .NotAnExecutable ∨
      (getRichheader Env.ulong32 [] (FStream.opened cutHeader)).outcome =
        .failure .MalformedDosHeader ∨
      (getRichheader Env.ulong32 [] (FStream.opened cutHeader)).outcome =
        .failure .NotAPEImage) ∧
    (getRichheader Env.ulong32 [] (FStream.opened cutHeader)).machine = none ∧
    ∀ entries, (getRichheader Env.ulong32 [] (FStream.opened cutHeader)).outcome ≠
      .decoded entries) :=
  ⟨by decide, by decide,
    short_file_no_decode Env.ulong32 [] (FStream.opened cutHeader) (by decide) (by decide)⟩

/-- The reads of the pass over `noRichPE`: the seven of the location phase,
then the eight dwords of the stub, each one complete. -/
theorem noRichPE_reads :
    readsSince (locate Env.ulong32 (FStream.opened noRichPE)).2
      (getRichheader Env.ulong32 [] (FStream.opened noRichPE)).file =
      [(92, 4), (88, 4), (84, 4), (80, 4), (76, 4), (72, 4), (68, 4), (64, 4)] := by
  have hl : locate Env.ulong32 (FStream.opened noRichPE) =
      (.ok ⟨"x64", 0x40, 0x60⟩, located noRichPE 0x60) := by
    rfl
  unfold getRichheader
  rw [hl]
  simp only []
  rw [scanRich_miss _ _ _ _ (by decide) (by decide),
    scanRich_miss _ _ _ _ (by decide) (by decide),
    scanRich_miss _ _ _ _ (by decide) (by decide),
    scanRich_miss _ _ _ _ (by decide) (by decide),
    scanRich_miss _ _ _ _ (by decide) (by decide),
    scanRich_miss _ _ _ _ (by decide) (by decide),
    scanRich_miss _ _ _ _ (by decide) (by decide),
    scanRich_miss _ _ _ _ (by decide) (by decide),
    scanRich_done _ _ _ _ (by decide)]
  decide

/-- C18 (counterexample): the image `truncatedRichPE` ends right after its PE
signature.  The location phase succeeds with the window from `0x40` to
`0x60`, and the offset `0x40 + 4 * 6 = 0x58` of the window holds the dword
"Rich"; but the read of the machine word has set the stream's fail bit, the
scan reads nothing from the file, and the pass ends with
`RichSignatureNotFound`. -/
theorem rich_signature_missed_on_failed_stream :
    locate Env.ulong32 (FStream.opened truncatedRichPE) =
      (.ok ⟨"Unknown", 0x40, 0x60⟩, ⟨truncatedRichPE, true,
        [(100, 0), (96, 4), (60, 2), (24, 2), (8, 2), (6, 2), (0, 2)]⟩) ∧
    0x40 + 4 * 6 < 0x60 ∧
    le32At (FStream.opened truncatedRichPE).bytes (0x40 + 4 * 6) = 0x68636952 ∧
    (getRichheader Env.ulong32 [] (FStream.opened truncatedRichPE)).outcome =
      .failure .RichSignatureNotFound := by
  have hl : locate Env.ulong32 (FStream.opened truncatedRichPE) =
      (.ok ⟨"Unknown", 0x40, 0x60⟩, ⟨truncatedRichPE, true,
        [(100, 0), (96, 4), (60, 2), (24, 2), (8, 2), (6, 2), (0, 2)]⟩) := by
    rfl
  refine ⟨hl, by decide, by decide, ?_⟩
  unfold getRichheader
  rw [hl]
  simp only []
  rw [scanRich_miss _ _ _ _ (by decide) (by decide),
    scanRich_miss _ _ _ _ (by decide) (by decide),
    scanRich_miss _ _ _ _ (by decide) (by decide),
    scanRich_miss _ _ _ _ (by decide) (by decide),
    scanRich_miss _ _ _ _ (by decide) (by decide),
    scanRich_miss _ _ _ _ (by decide) (by decide),
    scanRich_miss _ _ _ _ (by decide) (by decide),
    scanRich_miss _ _ _ _ (by decide) (by decide),
    scanRich_done _ _ _ _ (by decide)]
  decide

end RichPrint
